import Mathlib

/-!
# Verification of the `eseries` library (IEC 60063 preferred-number search)

This file gives a shallow embedding of `eseries.py` and proves properties of it.

Embedding conventions:

* Python floats are modelled as exact rationals (`ℚ`); `math.isfinite` is always
  true on this model, and float rounding error is absent.
* The module works with base-10 logarithms of positive quantities only through
  order comparisons (`bisect_left` / `bisect_right` on the mantissa table,
  `divmod(log, 1)`, and the `epsilon` widening by half of the last mantissa gap).
  Every such comparison of logarithms is realised here as the equivalent exact
  comparison of the *squares* of the underlying positive values:
  `log10 x ≤ log10 y ↔ x ≤ y ↔ x^2 ≤ y^2` for positive `x, y`, and the epsilon
  shift `log10 x ± epsilon` corresponds to multiplying/dividing `x^2` by the
  rational ratio `r = t[n-1] / t[n-2]` of the last two table entries
  (`10^(2*epsilon) = r`).  The decomposition `divmod(log10 x, 1)` of a real
  logarithm into decade and mantissa becomes `Int.log 100 (x^2 · r^±1)`.
* Python's `ValueError`s, the two `assert` statements, and the `IndexError` that
  `[0]` could raise are modelled by the `EErr` error type via `Except`.
-/

/-- The series keys.  `eseries.py` uses an `IntEnum`; the numeric value of each
key is `seriesNum` below. -/
inductive ESeries where
  | E3 | E6 | E12 | E24 | E48 | E96 | E192
deriving DecidableEq, Repr

set_option maxRecDepth 4000

/-- The `IntEnum` numeric value of a series key (`E3 = 3`, …, `E192 = 192`). -/
def seriesNum : ESeries → ℕ
  | .E3 => 3
  | .E6 => 6
  | .E12 => 12
  | .E24 => 24
  | .E48 => 48
  | .E96 => 96
  | .E192 => 192

/-- The series tables, transcribed verbatim from the `_E` ordered dictionary. -/
def _E : ESeries → List ℕ
  | .E3 => [10, 22, 47]
  | .E6 => [10, 15, 22, 33, 47, 68]
  | .E12 => [10, 12, 15, 18, 22, 27, 33, 39, 47, 56, 68, 82]
  | .E24 => [10, 11, 12, 13, 15, 16, 18, 20, 22, 24, 27, 30, 33, 36, 39, 43, 47, 51, 56, 62,
      68, 75, 82, 91]
  | .E48 => [100, 105, 110, 115, 121, 127, 133, 140, 147, 154, 162, 169, 178, 187, 196, 205,
      215, 226, 237, 249, 261, 274, 287, 301, 316, 332, 348, 365, 383, 402, 422, 442, 464,
      487, 511, 536, 562, 590, 619, 649, 681, 715, 750, 787, 825, 866, 909, 953]
  | .E96 => [100, 102, 105, 107, 110, 113, 115, 118, 121, 124, 127, 130, 133, 137, 140, 143,
      147, 150, 154, 158, 162, 165, 169, 174, 178, 182, 187, 191, 196, 200, 205, 210, 215,
      221, 226, 232, 237, 243, 249, 255, 261, 267, 274, 280, 287, 294, 301, 309, 316, 324,
      332, 340, 348, 357, 365, 374, 383, 392, 402, 412, 422, 432, 442, 453, 464, 475, 487,
      499, 511, 523, 536, 549, 562, 576, 590, 604, 619, 634, 649, 665, 681, 698, 715, 732,
      750, 768, 787, 806, 825, 845, 866, 887, 909, 931, 953, 976]
  | .E192 => [100, 101, 102, 104, 105, 106, 107, 109, 110, 111, 113, 114, 115, 117, 118, 120,
      121, 123, 124, 126, 127, 129, 130, 132, 133, 135, 137, 138, 140, 142, 143, 145, 147,
      149, 150, 152, 154, 156, 158, 160, 162, 164, 165, 167, 169, 172, 174, 176, 178, 180,
      182, 184, 187, 189, 191, 193, 196, 198, 200, 203, 205, 208, 210, 213, 215, 218, 221,
      223, 226, 229, 232, 234, 237, 240, 243, 246, 249, 252, 255, 258, 261, 264, 267, 271,
      274, 277, 280, 284, 287, 291, 294, 298, 301, 305, 309, 312, 316, 320, 324, 328, 332,
      336, 340, 344, 348, 352, 357, 361, 365, 370, 374, 379, 383, 388, 392, 397, 402, 407,
      412, 417, 422, 427, 432, 437, 442, 448, 453, 459, 464, 470, 475, 481, 487, 493, 499,
      505, 511, 517, 523, 530, 536, 542, 549, 556, 562, 569, 576, 583, 590, 597, 604, 612,
      619, 626, 634, 642, 649, 657, 665, 673, 681, 690, 698, 706, 715, 723, 732, 741, 750,
      759, 768, 777, 787, 796, 806, 816, 825, 835, 845, 856, 866, 876, 887, 898, 909, 920,
      931, 942, 953, 965, 976, 988]

/-- `series(series_key)`.  The key type is a closed enumeration, so the
"E-series not found" branch of the Python function cannot be reached. -/
def series (k : ESeries) : List ℕ := _E k

/-- `_TOLERANCE` lookup (`tolerance(series_key)`). -/
def tolerance : ESeries → ℚ
  | .E3 => 4/10
  | .E6 => 2/10
  | .E12 => 1/10
  | .E24 => 5/100
  | .E48 => 2/100
  | .E96 => 1/100
  | .E192 => 5/1000

/-- `_MINIMUM_E_VALUE = 1e-200` (the rational `10^-200`; written via `mkRat`
because `Rat.inv` — hence `/` on `ℚ` — is `@[irreducible]` and would block
kernel evaluation). -/
def minE : ℚ := mkRat 1 (10 ^ 200)

/-- Tail-recursive maximum scan (Python's `max` over an iterable is exactly
this left-to-right strict fold; forcing the comparison at each step keeps
kernel reduction at constant stack depth, which `List.foldr max` would not). -/
def maxScan (acc : ℚ) : List ℚ → ℚ
  | [] => acc
  | x :: xs =>
      match Rat.blt acc x with
      | true => maxScan x xs
      | false => maxScan acc xs

/-- `GEOMETRIC_SCALE_E[k] = max(b/a for a, b in zip(series, series[1:]))`
(the tables are nonempty and positive, so the `0` seed is inert). -/
def geometricScale (k : ESeries) : ℚ :=
  maxScan 0 (List.zipWith (fun a b : ℕ => Rat.divInt (b : ℤ) (a : ℤ)) (_E k) (_E k).tail)

/-! Mathlib's `Nat.log`, `Nat.clog` and `Int.log` are defined by well-founded
recursion and therefore do not reduce inside the kernel, which would make every
concrete evaluation below impossible to check by `decide`.  The next few
definitions are fuel-based structural equivalents (the fuel only bounds the
number of division steps, so it never changes the value); they are proved equal
to the Mathlib functions further down and the Mathlib lemmas are used through
that bridge. -/

/-- Kernel-reducible inverse on `ℚ`: equal to `q⁻¹` (`Rat.inv_def'`), but
`Rat.inv` itself is `@[irreducible]`, so `q⁻¹`, `/` and negative integer powers
would not evaluate inside the kernel.  All definitions below use `qInv`,
`qDiv` and `qpow` instead; they are proved equal to the standard operations. -/
def qInv (q : ℚ) : ℚ := Rat.divInt q.den q.num

/-- Kernel-reducible multiplication on `ℚ` (`Rat.mul` is `@[irreducible]` as
well; `Rat.divInt` normalises, so this equals `a * b`). -/
def qMul (a b : ℚ) : ℚ := Rat.divInt (a.num * b.num) ((a.den : ℤ) * b.den)

/-- Kernel-reducible division on `ℚ` (equal to `a / b`). -/
def qDiv (a b : ℚ) : ℚ := qMul a (qInv b)

/-- Kernel-reducible subtraction on `ℚ` (`Rat.sub` is also `@[irreducible]`). -/
def qSub (a b : ℚ) : ℚ := Rat.divInt (a.num * b.den - b.num * a.den) ((a.den : ℤ) * b.den)

/-- Kernel-reducible integer power on `ℚ` (equal to `b ^ e` for `e : ℤ`). -/
def qpow (b : ℚ) : ℤ → ℚ
  | .ofNat n => b ^ n
  | .negSucc n => qInv (b ^ (n + 1))

/-- Fuel-based `Nat.log`: `natLogAux b fuel n = Nat.log b n` whenever `n ≤ fuel`. -/
def natLogAux (b : ℕ) : ℕ → ℕ → ℕ
  | 0, _ => 0
  | fuel + 1, n => if 1 < b ∧ b ≤ n then natLogAux b fuel (n / b) + 1 else 0

/-- Kernel-reducible `Nat.log`. -/
def natLogD (b n : ℕ) : ℕ := natLogAux b n n

/-- Fuel-based `Nat.clog`: `natClogAux b fuel n = Nat.clog b n` whenever `n ≤ fuel`. -/
def natClogAux (b : ℕ) : ℕ → ℕ → ℕ
  | 0, _ => 0
  | fuel + 1, n => if 1 < b ∧ 1 < n then natClogAux b fuel ((n + b - 1) / b) + 1 else 0

/-- Kernel-reducible `Nat.clog`. -/
def natClogD (b n : ℕ) : ℕ := natClogAux b n n

/-- Kernel-reducible `Int.log` on `ℚ` (same definition shape as Mathlib's). -/
def intLogD (b : ℕ) (q : ℚ) : ℤ :=
  if 1 ≤ q then (natLogD b ⌊q⌋₊ : ℤ) else -(natClogD b ⌈qInv q⌉₊ : ℤ)

/-- The check `is_integral(log10(series_values[0]))` performed by
`series_decade = _try_integral(log10(series_values[0]))`: returns `some d`
exactly when the first table entry equals `10 ^ d`. -/
def pow10Exp? (m : ℕ) : Option ℕ :=
  let d := natLogD 10 m
  if 10 ^ d = m then some d else none

/-- The derived series decade (`1` for the two-digit tables, `2` for the
three-digit tables), i.e. the value of `series_decade` in `erange`. -/
def seriesDecade (k : ESeries) : ℕ := (pow10Exp? ((_E k).headD 0)).getD 0

/-- The ratio `t[n-1] / t[n-2]` of the two largest table entries.  The epsilon
used by `erange` is `epsilon = (log10 t[n-1] - log10 t[n-2]) / 2`, so
`10 ^ (2 * epsilon)` is exactly this rational number. -/
def lastRatio (k : ESeries) : ℚ :=
  Rat.divInt ((_E k).getLastD 0 : ℤ) ((_E k).dropLast.getLastD 0 : ℤ)

/-- Round half to even (Python's `round` on an exact value). -/
def roundHalfEven (q : ℚ) : ℤ :=
  if qSub q ⌊q⌋ < mkRat 1 2 then ⌊q⌋
  else if mkRat 1 2 < qSub q ⌊q⌋ then ⌊q⌋ + 1
  else if ⌊q⌋ % 2 = 0 then ⌊q⌋ else ⌊q⌋ + 1

/-- Python's `round(x, nd)` on exact rationals. -/
def pyRound (x : ℚ) (nd : ℤ) : ℚ := qMul (roundHalfEven (qMul x (qpow 10 nd)) : ℚ) (qpow 10 (-nd))

/-- `_round_sig(x, figures) = 0 if x == 0 else round(x, figures - floor(log10(abs(x))) - 1)`.
`Int.log 10 |x|` is exactly `floor(log10(abs(x)))` for `x ≠ 0`. -/
def round_sig (x : ℚ) (figures : ℤ) : ℚ :=
  if x = 0 then 0 else pyRound x (figures - intLogD 10 |x| - 1)

/-- Errors of the library: the `ValueError`s, the two `assert` statements and
the list indexing of `find_nearest`.  `startTooSmall`/`stopTooSmall` carry the
value that the Python message interpolates into `"{} is too small…"`.  (On the
window path of `find_nearest_few`, the interpolated float `value * scale^1.5`
is irrational; there the payload carries `value` as a proxy, and no theorem
below consults those payloads.) -/
inductive EErr where
  | startTooSmall (reported : ℚ)
  | stopTooSmall (reported : ℚ)
  | startGtStop (startVal stopVal : ℚ)
  | firstEntryNotPow10
  | assertStopIndexZero
  | invalidNum (num : ℕ)
  | assertNoCandidate
  | indexOutOfRange
deriving DecidableEq, Repr

/-- `start_index = bisect_left(series_log, start_mantissa)` where
`start_mantissa = (log10 start - epsilon) mod 1` and `d1` is its decade.
For the sorted mantissa table, `bisect_left` returns the number of entries
strictly below the target; the real comparison
`log10 m - D < (log10 start - epsilon) - d1` is equivalent (squaring and
scaling by `100^(D + d1)`, all positive) to the rational comparison below,
with `a2 = start^2` and `r = 10^(2*epsilon)`. -/
def startIdxRaw (t : List ℕ) (D : ℕ) (r a2 : ℚ) (d1 : ℤ) : ℕ :=
  t.countP (fun m : ℕ => decide (qMul (qMul ((m : ℚ) ^ 2) r) (qpow 100 d1) < qMul a2 (qpow 100 (D : ℤ))))

/-- `stop_index = bisect_right(series_log, stop_mantissa)` where
`stop_mantissa = (log10 stop + epsilon) mod 1`: the number of entries with
mantissa `≤` the target, by the same squaring translation (`b2 = stop^2`). -/
def stopIdx (t : List ℕ) (D : ℕ) (r b2 : ℚ) : ℕ :=
  t.countP (fun m : ℕ =>
    decide (qMul ((m : ℚ) ^ 2) (qpow 100 (intLogD 100 (qMul b2 r))) ≤ qMul (qMul b2 r) (qpow 100 (D : ℤ))))

/-- The wrapped start decade: `start_decade`, incremented when `bisect_left`
runs off the end of the mantissa table. -/
def startDec (t : List ℕ) (D : ℕ) (r a2 : ℚ) : ℤ :=
  if startIdxRaw t D r a2 (intLogD 100 (qDiv a2 r)) = t.length
  then intLogD 100 (qDiv a2 r) + 1 else intLogD 100 (qDiv a2 r)

/-- The wrapped start index: `start_index`, reset to `0` on decade wrap. -/
def startIdx (t : List ℕ) (D : ℕ) (r a2 : ℚ) : ℕ :=
  if startIdxRaw t D r a2 (intLogD 100 (qDiv a2 r)) = t.length
  then 0 else startIdxRaw t D r a2 (intLogD 100 (qDiv a2 r))

/-- `stop_decade = floor(log10 stop + epsilon)`, i.e. `floor(log100 (stop^2 * r))`. -/
def stopDec (r b2 : ℚ) : ℤ := intLogD 100 (qMul b2 r)

/-- The decade/index loop of `erange`, producing the yielded values in order.
`a2` and `b2` are the squares of the (positive) `start` and `stop` bounds;
`intLogD 100 (qDiv a2 r)` is exactly `floor(log10 start - epsilon)` and
`intLogD 100 (qMul b2 r)` is exactly `floor(log10 stop + epsilon)`.  Each
decade runs `range(index_begin, index_end)` (`List.range' lo (hi - lo)`), the
value is `series_values[index] * 10^(decade - series_decade)` rounded to
`series_decade + 1` significant figures, and the final inclusion test
`start <= rounded_result <= stop` is the squared comparison on the
(nonnegative) rounded value. -/
def erChunk (t : List ℕ) (D : ℕ) (r a2 b2 : ℚ) (d : ℤ) : List ℚ :=
  ((List.range' (if d = startDec t D r a2 then startIdx t D r a2 else 0)
      ((if d = stopDec r b2 then stopIdx t D r b2 else t.length)
        - (if d = startDec t D r a2 then startIdx t D r a2 else 0))).map fun i =>
    round_sig (qMul (t.getD i 0 : ℚ) (qpow 10 (d - (D : ℤ)))) ((D : ℤ) + 1)).filter fun v =>
      decide (a2 ≤ v ^ 2) && decide (v ^ 2 ≤ b2)

def enumRange (t : List ℕ) (D : ℕ) (r a2 b2 : ℚ) : List ℚ :=
  ((List.range (stopDec r b2 + 1 - startDec t D r a2).toNat).map
      (fun j : ℕ => startDec t D r a2 + (j : ℤ))).flatMap (erChunk t D r a2 b2)

/-- The body of `erange` after the range validation: the internal-consistency
check on the first table entry, the `assert stop_index != 0`, then the loop. -/
def erangeCore (k : ESeries) (a2 b2 : ℚ) : Except EErr (List ℚ) :=
  match pow10Exp? ((_E k).headD 0) with
  | none => .error .firstEntryNotPow10
  | some D =>
      if stopIdx (_E k) D (lastRatio k) b2 = 0 then .error .assertStopIndexZero
      else .ok (enumRange (_E k) D (lastRatio k) a2 b2)

/-- `erange(series_key, start, stop)`.  The two `math.isfinite` guards cannot
fire on the exact model (every rational is finite).  Note the source
interpolates `stop` — not `start` — into the "start value is too small"
message; the payload records that faithfully. -/
def erange (k : ESeries) (start stop : ℚ) : Except EErr (List ℚ) :=
  if start < minE then .error (.startTooSmall stop)
  else if stop < minE then .error (.stopTooSmall stop)
  else if ¬ start ≤ stop then .error (.startGtStop start stop)
  else erangeCore k (start ^ 2) (stop ^ 2)

/-- Stable insertion (by the `ℚ` key) used to model Python's stable `sorted`
with `key=lambda x: x[1]`: an element is inserted before the first strictly
larger *or equal-keyed later* element, i.e. after nothing it can precede —
ties keep the original (enumeration) order. -/
def insertByKey (x : ℕ × ℚ) : List (ℕ × ℚ) → List (ℕ × ℚ)
  | [] => [x]
  | y :: ys => if x.2 ≤ y.2 then x :: y :: ys else y :: insertByKey x ys

/-- Stable sort by the second component (any stable sort computes the same
function as Python's Timsort with this key). -/
def sortByKey : List (ℕ × ℚ) → List (ℕ × ℚ)
  | [] => []
  | x :: xs => insertByKey x (sortByKey xs)

/-- Insertion step for the plain ascending `sorted(...)` on values. -/
def insertVal (x : ℚ) : List ℚ → List ℚ
  | [] => [x]
  | y :: ys => if x ≤ y then x :: y :: ys else y :: insertVal x ys

/-- Ascending sort on values (Python's `sorted`). -/
def sortVals : List ℚ → List ℚ
  | [] => []
  | x :: xs => insertVal x (sortVals xs)

/-- `_nearest_n(candidates, value, n)`: rank indices by absolute distance with
a stable sort, take the first `n`, return those candidates sorted ascending. -/
def _nearest_n (candidates : List ℚ) (value : ℚ) (n : ℕ) : List ℚ :=
  let indexes := (sortByKey (candidates.map (fun c => |qSub c value|)).enum).map Prod.fst
  sortVals ((indexes.take n).map fun i => candidates.getD i 0)

/-- `find_nearest_few(series_key, value, num)`.  The enumeration window is
`[value / scale^1.5, value * scale^1.5]`; its squared bounds are the rationals
`value^2 / scale^3` and `value^2 * scale^3`.  The range validation of the
inner `erange` call is performed sign-awarely on those squares:
`value/scale^1.5 < minE ↔ value ≤ 0 ∨ value^2 < minE^2 * scale^3`, and
similarly for the stop bound; the `start ≤ stop` guard cannot fire once
`value > 0` (the scale exceeds 1), so it has no branch here. -/
def find_nearest_few (k : ESeries) (value : ℚ) (num : ℕ) : Except EErr (List ℚ) :=
  if ¬ (num = 1 ∨ num = 2 ∨ num = 3) then .error (.invalidNum num)
  else
    let s := geometricScale k
    if value ≤ 0 ∨ value ^ 2 < qMul (minE ^ 2) (s ^ 3) then .error (.startTooSmall value)
    else if qMul (value ^ 2) (s ^ 3) < minE ^ 2 then .error (.stopTooSmall value)
    else
      match erangeCore k (qDiv (value ^ 2) (s ^ 3)) (qMul (value ^ 2) (s ^ 3)) with
      | .error e => .error e
      | .ok candidates => .ok (_nearest_n candidates value num)

/-- `find_nearest(series_key, value) = find_nearest_few(series_key, value, 1)[0]`. -/
def find_nearest (k : ESeries) (value : ℚ) : Except EErr ℚ :=
  match find_nearest_few k value 1 with
  | .error e => .error e
  | .ok [] => .error .indexOutOfRange
  | .ok (x :: _) => .ok x

/-- `find_greater_than_or_equal`: first of the 3 nearest (ascending) that is
`≥ value`; `assert False` when none is. -/
def find_greater_than_or_equal (k : ESeries) (value : ℚ) : Except EErr ℚ :=
  match find_nearest_few k value 3 with
  | .error e => .error e
  | .ok candidates =>
      match candidates.find? (fun c => decide (value ≤ c)) with
      | some c => .ok c
      | none => .error .assertNoCandidate

/-- `find_greater_than`: strict version. -/
def find_greater_than (k : ESeries) (value : ℚ) : Except EErr ℚ :=
  match find_nearest_few k value 3 with
  | .error e => .error e
  | .ok candidates =>
      match candidates.find? (fun c => decide (value < c)) with
      | some c => .ok c
      | none => .error .assertNoCandidate

/-- `find_less_than_or_equal`: scans the 3 nearest in reverse for the first
candidate `≤ value`. -/
def find_less_than_or_equal (k : ESeries) (value : ℚ) : Except EErr ℚ :=
  match find_nearest_few k value 3 with
  | .error e => .error e
  | .ok candidates =>
      match candidates.reverse.find? (fun c => decide (c ≤ value)) with
      | some c => .ok c
      | none => .error .assertNoCandidate

/-- `find_less_than`: strict version of the reverse scan. -/
def find_less_than (k : ESeries) (value : ℚ) : Except EErr ℚ :=
  match find_nearest_few k value 3 with
  | .error e => .error e
  | .ok candidates =>
      match candidates.reverse.find? (fun c => decide (c < value)) with
      | some c => .ok c
      | none => .error .assertNoCandidate

/-- The decade exponent placing a table entry `m` inside the window
`[low, 10·low)` (computed on squares: `a2 = low²`): the unique `e` with
`a2 ≤ (m·10^e)² < 100·a2`. -/
def decExp (a2 : ℚ) (m : ℕ) : ℤ := -(Int.log 100 ((m : ℚ) ^ 2 / a2))

/-- The representative of a table entry inside the window `[low, 10·low)`. -/
def refVal (a2 : ℚ) (m : ℕ) : ℚ := (m : ℚ) * 10 ^ decExp a2 m

/-- One representative per table entry: the reference enumeration of the
standard values of one decade window. -/
def refList (t : List ℕ) (a2 : ℚ) : List ℚ := t.map (refVal a2)

/-- Equality of `Except` results is decidable (needed to settle concrete
evaluations by `decide`). -/
instance {ε α : Type} [DecidableEq ε] [DecidableEq α] : DecidableEq (Except ε α)
  | .error e, .error f =>
      if h : e = f then .isTrue (congrArg Except.error h)
      else .isFalse fun c => h (Except.error.injEq e f ▸ c)
  | .error _, .ok _ => .isFalse fun c => Except.noConfusion c
  | .ok _, .error _ => .isFalse fun c => Except.noConfusion c
  | .ok a, .ok b =>
      if h : a = b then .isTrue (congrArg Except.ok h)
      else .isFalse fun c => h (Except.ok.injEq a b ▸ c)

/-! ## Concrete-scenario claims -/

/-- C1 (counterexample): `erange(E12, 21, 147)` does *not* enumerate the
sequence claimed by the spec — `147` is not an E12 standard value, so the
claimed list (ending in `147`) is not the output. -/
theorem erange_E12_21_147_counterexample :
    ¬ erange .E12 21 147 =
      .ok [22, 27, 33, 39, 47, 56, 68, 82, 100, 120, 147] := by decide

/-- C1 (amended): `erange(E12, 21, 147)` yields exactly
`22, 27, 33, 39, 47, 56, 68, 82, 100, 120`, in that order: the E12 values that
follow `120` in the second decade are `150, 180, …`, all above the stop bound
`147`, and `147` itself is not an E12 value. -/
theorem erange_E12_21_147 :
    erange .E12 21 147 = .ok [22, 27, 33, 39, 47, 56, 68, 82, 100, 120] := by decide

/-- C3: the claimed ordering bounds fail on the code.  At the positive finite
value `13` (series E24) the non-strict searches do return `13` and
`find_less_than` returns `12 < 13`, but `find_greater_than` reaches its
`assert False`: the three nearest candidates of `13` are `(11, 12, 13)`
(the stable sort breaks the tie `|11-13| = |15-13|` toward the earlier
candidate `11`), none of which exceeds `13`, so no value
`> 13` is returned at all. -/
theorem find_greater_than_E24_13_fails :
    find_greater_than .E24 13 = .error .assertNoCandidate ∧
      find_less_than_or_equal .E24 13 = .ok 13 ∧
      find_greater_than_or_equal .E24 13 = .ok 13 ∧
      find_less_than .E24 13 = .ok 12 := by decide

/-- C5: the bracketing guarantee for `count = 3` fails at the interior target
`13` of series E24: `find_nearest_few(E24, 13, 3)` returns `(11, 12, 13)`,
which contains values strictly below `13` but none strictly above it. -/
theorem find_nearest_few_E24_13_no_upper :
    find_nearest_few .E24 13 3 = .ok [11, 12, 13] ∧
      ∀ x ∈ ([11, 12, 13] : List ℚ), x ≤ 13 := by decide

/-- C8: a too-small *start* is reported naming the *stop* value: the source
interpolates `stop` into the "start value must be greater than or equal to"
message, so `erange(E12, 10^-300, 5)` raises an error that names `5`,
not `10^-300`. -/
theorem erange_too_small_start_names_stop :
    erange .E12 (mkRat 1 (10 ^ 201)) 5 = .error (.startTooSmall 5) := by decide

/-- C9: the terminal assertion branch of the comparator-directed searches *is*
reachable on valid input: `find_greater_than(E192, 102)` fails its
`assert False` (the three nearest candidates of `102` are `(100, 101, 102)`
after the stable tie-break between `100` and `104`).  The table-data half of
the claim does hold: every series table's first entry is an exact power of
ten, so `erange`'s internal-consistency branch never fires. -/
theorem find_greater_than_E192_102_assert_reachable :
    find_greater_than .E192 102 = .error .assertNoCandidate ∧
      ∀ k, pow10Exp? ((_E k).headD 0) = some (seriesDecade k) := by
  refine ⟨by decide, ?_⟩
  intro k
  cases k <;> decide

/-! ## Bridge lemmas: the kernel-reducible operations agree with the standard
Mathlib operations. -/

theorem qInv_eq (q : ℚ) : qInv q = q⁻¹ := by
  rw [qInv, show (q⁻¹ : ℚ) = q.inv from rfl, Rat.inv_def]

theorem qMul_eq (a b : ℚ) : qMul a b = a * b := by
  rw [qMul]
  conv_rhs => rw [← Rat.num_divInt_den a, ← Rat.num_divInt_den b]
  rw [Rat.divInt_mul_divInt _ _ (by exact_mod_cast a.den_nz) (by exact_mod_cast b.den_nz)]

theorem qSub_eq (a b : ℚ) : qSub a b = a - b := by
  rw [qSub]
  conv_rhs => rw [← Rat.num_divInt_den a, ← Rat.num_divInt_den b]
  rw [Rat.divInt_sub_divInt _ _ (by exact_mod_cast a.den_nz) (by exact_mod_cast b.den_nz)]

theorem qDiv_eq (a b : ℚ) : qDiv a b = a / b := by
  rw [qDiv, qMul_eq, qInv_eq, div_eq_mul_inv]

theorem qpow_eq (b : ℚ) (e : ℤ) : qpow b e = b ^ e := by
  cases e with
  | ofNat n => rw [qpow, Int.ofNat_eq_coe, zpow_natCast]
  | negSucc n => rw [qpow, qInv_eq, zpow_negSucc]

theorem natLogAux_eq (b : ℕ) : ∀ fuel n, n ≤ fuel → natLogAux b fuel n = Nat.log b n := by
  intro fuel
  induction fuel with
  | zero =>
      intro n hn
      rw [Nat.le_zero.mp hn, natLogAux, Nat.log_zero_right]
  | succ fuel ih =>
      intro n hn
      rw [natLogAux]
      by_cases h : 1 < b ∧ b ≤ n
      · rw [if_pos h, ih _ (by
            have hb2 : 2 ≤ b := h.1
            have hn0 : 0 < n := lt_of_lt_of_le (by omega) h.2
            have : n / b < n := Nat.div_lt_self hn0 h.1
            omega),
          Nat.log_of_one_lt_of_le h.1 h.2]
      · rw [if_neg h]
        rcases Nat.lt_or_ge n b with hlt | hge
        · exact (Nat.log_of_lt hlt).symm
        · have hb : b ≤ 1 := by omega
          exact (Nat.log_of_left_le_one hb n).symm

theorem natLogD_eq (b n : ℕ) : natLogD b n = Nat.log b n := natLogAux_eq b n n le_rfl

theorem natClogAux_eq (b : ℕ) : ∀ fuel n, n ≤ fuel → natClogAux b fuel n = Nat.clog b n := by
  intro fuel
  induction fuel with
  | zero =>
      intro n hn
      rw [Nat.le_zero.mp hn, natClogAux, Nat.clog_of_right_le_one (by omega)]
  | succ fuel ih =>
      intro n hn
      rw [natClogAux]
      by_cases h : 1 < b ∧ 1 < n
      · have hdiv : (n + b - 1) / b < n := by
          have hb0 : 0 < b := by omega
          rw [Nat.div_lt_iff_lt_mul hb0]
          have h2 : 2 ≤ n := h.2
          have h3 : 2 ≤ b := h.1
          have h1 : n + b ≤ n * b := by nlinarith
          omega
        rw [if_pos h, ih _ (by omega), Nat.clog_of_two_le h.1 h.2]
      · rw [if_neg h]
        rcases Nat.lt_or_ge n 2 with hlt | hge
        · exact (Nat.clog_of_right_le_one (by omega) b).symm
        · have hb : b ≤ 1 := by
            rcases not_and_or.mp h with h1 | h2
            · omega
            · omega
          exact (Nat.clog_of_left_le_one hb n).symm

theorem natClogD_eq (b n : ℕ) : natClogD b n = Nat.clog b n := natClogAux_eq b n n le_rfl

theorem intLogD_eq (b : ℕ) (q : ℚ) : intLogD b q = Int.log b q := by
  rw [intLogD, Int.log]
  by_cases h : 1 ≤ q
  · rw [if_pos h, if_pos h, natLogD_eq]
  · rw [if_neg h, if_neg h, natClogD_eq, qInv_eq]

/-- `Int.log` is determined by the zpow bracket. -/
theorem intLog_eq_of {b : ℕ} (hb : 1 < b) {q : ℚ} (hq : 0 < q) {e : ℤ}
    (h1 : (b : ℚ) ^ e ≤ q) (h2 : q < (b : ℚ) ^ (e + 1)) : Int.log b q = e := by
  have hle : e ≤ Int.log b q := (Int.zpow_le_iff_le_log hb hq).1 h1
  have hlt : Int.log b q < e + 1 := (Int.lt_zpow_iff_log_lt hb hq).1 h2
  omega

theorem mkRat_half : (mkRat 1 2 : ℚ) = 1 / 2 := by
  rw [Rat.mkRat_eq_divInt, Rat.divInt_eq_div]
  norm_num

/-- `roundHalfEven` fixes integers. -/
theorem roundHalfEven_intCast (z : ℤ) : roundHalfEven (z : ℚ) = z := by
  rw [roundHalfEven, qSub_eq, mkRat_half, Int.floor_intCast]
  rw [if_pos (by norm_num)]

/-- The rounding step of `erange` is the identity on the values the loop
produces: a table entry `m` with `D + 1` digits scaled by a power of ten,
rounded to `D + 1` significant figures, is returned unchanged. -/
theorem round_sig_table (m D : ℕ) (e : ℤ) (h1 : 10 ^ D ≤ m) (h2 : m < 10 ^ (D + 1)) :
    round_sig ((m : ℚ) * 10 ^ e) ((D : ℤ) + 1) = (m : ℚ) * 10 ^ e := by
  have hm0 : 0 < (m : ℚ) := by
    have : 0 < m := lt_of_lt_of_le (Nat.pos_pow_of_pos D (by norm_num)) h1
    exact_mod_cast this
  have hx0 : 0 < (m : ℚ) * 10 ^ e := mul_pos hm0 (zpow_pos (by norm_num) e)
  have hlb : ((10 : ℚ) ^ ((D : ℤ) + e)) ≤ (m : ℚ) * 10 ^ e := by
    rw [zpow_add₀ (by norm_num : (10 : ℚ) ≠ 0)]
    have : (10 : ℚ) ^ (D : ℤ) ≤ (m : ℚ) := by
      rw [zpow_natCast]
      exact_mod_cast h1
    exact mul_le_mul_of_nonneg_right this (le_of_lt (zpow_pos (by norm_num) e))
  have hub : (m : ℚ) * 10 ^ e < (10 : ℚ) ^ ((D : ℤ) + e + 1) := by
    rw [show (D : ℤ) + e + 1 = ((D + 1 : ℕ) : ℤ) + e by push_cast; ring,
      zpow_add₀ (by norm_num : (10 : ℚ) ≠ 0)]
    have : (m : ℚ) < (10 : ℚ) ^ ((D + 1 : ℕ) : ℤ) := by
      rw [zpow_natCast]
      exact_mod_cast h2
    exact mul_lt_mul_of_pos_right this (zpow_pos (by norm_num) e)
  have hlog : intLogD 10 |(m : ℚ) * 10 ^ e| = (D : ℤ) + e := by
    rw [abs_of_pos hx0, intLogD_eq]
    exact intLog_eq_of (by norm_num) hx0 hlb hub
  rw [round_sig, if_neg (ne_of_gt hx0), hlog, pyRound]
  have hnd : (D : ℤ) + 1 - ((D : ℤ) + e) - 1 = -e := by ring
  rw [hnd, qMul_eq, qMul_eq, qpow_eq, qpow_eq, neg_neg]
  have hcollapse : (m : ℚ) * 10 ^ e * 10 ^ (-e) = (m : ℚ) := by
    rw [mul_assoc, ← zpow_add₀ (by norm_num : (10 : ℚ) ≠ 0)]
    simp
  rw [hcollapse]
  rw [show ((m : ℚ)) = ((m : ℤ) : ℚ) by push_cast; rfl, roundHalfEven_intCast]

/-! ## The bisect indices, via counting on the sorted table -/

theorem getD_mem_of_lt {l : List ℕ} {i : ℕ} (h : i < l.length) : l.getD i 0 ∈ l := by
  rw [List.getD_eq_getElem l 0 h]
  exact List.getElem_mem h

/-- For a strictly sorted list and a downward-closed (threshold) predicate, the
elements satisfying `P` are exactly an initial segment, so position `i`
satisfies `P` iff `i < countP P`.  This identifies `bisect_left` and
`bisect_right` on the sorted mantissa table with the `countP` calls used in
`startIdxRaw` / `stopIdx`. -/
theorem countP_sorted_iff {t : List ℕ} (hs : t.Pairwise (· < ·)) {P : ℕ → Bool}
    (hmono : ∀ a b : ℕ, a ≤ b → P b = true → P a = true) :
    ∀ i, i < t.length → (P (t.getD i 0) = true ↔ i < t.countP P) := by
  induction t with
  | nil => intro i hi; simp at hi
  | cons x xs ih =>
      intro i hi
      rw [List.countP_cons]
      have hx_lt : ∀ y ∈ xs, x < y := (List.pairwise_cons.1 hs).1
      cases i with
      | zero =>
          simp only [List.getD_cons_zero]
          constructor
          · intro hPx
            rw [if_pos hPx]
            omega
          · intro hpos
            by_cases hx : P x = true
            · exact hx
            · rw [if_neg hx] at hpos
              have hex : ∃ y ∈ xs, P y = true := by
                have hc : 0 < xs.countP P := by omega
                have h2 := List.countP_pos.1 hc
                simpa using h2
              obtain ⟨y, hy, hPy⟩ := hex
              exact absurd (hmono x y (le_of_lt (hx_lt y hy)) hPy) hx
      | succ i =>
          simp only [List.getD_cons_succ]
          rw [ih (List.Pairwise.of_cons hs) i (by simpa using hi)]
          by_cases hx : P x = true
          · rw [if_pos hx]
            omega
          · rw [if_neg hx]
            have hc : xs.countP P = 0 := by
              rw [List.countP_eq_zero]
              intro y hy hPy
              exact absurd (hmono x y (le_of_lt (hx_lt y hy)) (by simpa using hPy)) hx
            omega

theorem sq_cast_le {a b : ℕ} (h : a ≤ b) : ((a : ℚ)) ^ 2 ≤ ((b : ℚ)) ^ 2 := by
  have h' : (a : ℚ) ≤ b := by exact_mod_cast h
  exact pow_le_pow_left (by positivity) h' 2

/-- `bisect_left` characterisation: position `i` precedes the raw start index
exactly when its (squared, epsilon-shifted) mantissa comparison holds. -/
theorem lt_startIdxRaw_iff {t : List ℕ} {D : ℕ} {r a2 : ℚ}
    (hs : t.Pairwise (· < ·)) (hr : 0 < r) {i : ℕ} (hi : i < t.length) (d1 : ℤ) :
    i < startIdxRaw t D r a2 d1 ↔
      (t.getD i 0 : ℚ) ^ 2 * r * 100 ^ d1 < a2 * 100 ^ (D : ℤ) := by
  have hmono : ∀ a b : ℕ, a ≤ b →
      (fun m : ℕ => decide (qMul (qMul ((m : ℚ) ^ 2) r) (qpow 100 d1) < qMul a2 (qpow 100 (D : ℤ)))) b = true →
      (fun m : ℕ => decide (qMul (qMul ((m : ℚ) ^ 2) r) (qpow 100 d1) < qMul a2 (qpow 100 (D : ℤ)))) a = true := by
    intro a b hab hb
    simp only [qMul_eq, qpow_eq, decide_eq_true_eq] at hb ⊢
    refine lt_of_le_of_lt ?_ hb
    have : ((a : ℚ)) ^ 2 ≤ ((b : ℚ)) ^ 2 := sq_cast_le hab
    have hpos : (0 : ℚ) < r * 100 ^ d1 := mul_pos hr (zpow_pos (by norm_num) d1)
    calc (a : ℚ) ^ 2 * r * 100 ^ d1 = (a : ℚ) ^ 2 * (r * 100 ^ d1) := by ring
      _ ≤ (b : ℚ) ^ 2 * (r * 100 ^ d1) := mul_le_mul_of_nonneg_right this hpos.le
      _ = (b : ℚ) ^ 2 * r * 100 ^ d1 := by ring
  rw [startIdxRaw, ← countP_sorted_iff hs hmono i hi]
  simp only [qMul_eq, qpow_eq, decide_eq_true_eq]

/-- `bisect_right` characterisation for the stop index. -/
theorem lt_stopIdx_iff {t : List ℕ} {D : ℕ} {r b2 : ℚ}
    (hs : t.Pairwise (· < ·)) {i : ℕ} (hi : i < t.length) :
    i < stopIdx t D r b2 ↔
      (t.getD i 0 : ℚ) ^ 2 * 100 ^ Int.log 100 (b2 * r) ≤ b2 * r * 100 ^ (D : ℤ) := by
  have hmono : ∀ a b : ℕ, a ≤ b →
      (fun m : ℕ => decide (qMul ((m : ℚ) ^ 2) (qpow 100 (intLogD 100 (qMul b2 r))) ≤ qMul (qMul b2 r) (qpow 100 (D : ℤ)))) b = true →
      (fun m : ℕ => decide (qMul ((m : ℚ) ^ 2) (qpow 100 (intLogD 100 (qMul b2 r))) ≤ qMul (qMul b2 r) (qpow 100 (D : ℤ)))) a = true := by
    intro a b hab hb
    simp only [qMul_eq, qpow_eq, decide_eq_true_eq] at hb ⊢
    refine le_trans ?_ hb
    exact mul_le_mul_of_nonneg_right (sq_cast_le hab) (zpow_pos (by norm_num) _).le
  rw [stopIdx, ← countP_sorted_iff hs hmono i hi]
  simp only [qMul_eq, qpow_eq, decide_eq_true_eq, intLogD_eq]

/-- A table entry `m` with `10^D ≤ m < 10^(D+1)` has `100^D ≤ m^2 < 100^(D+1)`
over `ℚ` (the squared counterpart of "its mantissa lies in `[0, 1)`"). -/
theorem entry_sq_bounds {t : List ℕ} {D : ℕ}
    (hlb : ∀ m ∈ t, 10 ^ D ≤ m) (hub : ∀ m ∈ t, m < 10 ^ (D + 1)) {i : ℕ}
    (hi : i < t.length) :
    (100 : ℚ) ^ (D : ℤ) ≤ (t.getD i 0 : ℚ) ^ 2 ∧
      (t.getD i 0 : ℚ) ^ 2 < (100 : ℚ) ^ ((D : ℤ) + 1) := by
  have hm := getD_mem_of_lt hi
  have h1 : ((10 : ℚ)) ^ D ≤ (t.getD i 0 : ℚ) := by exact_mod_cast hlb _ hm
  have h2 : (t.getD i 0 : ℚ) < ((10 : ℚ)) ^ (D + 1) := by exact_mod_cast hub _ hm
  have e1 : ((10 : ℚ) ^ D) ^ 2 = (100 : ℚ) ^ (D : ℤ) := by
    rw [zpow_natCast, ← pow_mul, mul_comm, pow_mul]
    norm_num
  have e2 : ((10 : ℚ) ^ (D + 1)) ^ 2 = (100 : ℚ) ^ ((D : ℤ) + 1) := by
    rw [show (D : ℤ) + 1 = ((D + 1 : ℕ) : ℤ) by push_cast; ring, zpow_natCast,
      ← pow_mul, mul_comm, pow_mul]
    norm_num
  constructor
  · rw [← e1]
    exact pow_le_pow_left₀ (by positivity) h1 2
  · rw [← e2]
    exact pow_lt_pow_left h2 (by positivity) (by norm_num)

/-- Stop-side characterisation: a loop position `(d, i)` lies weakly before the
stop position exactly when the squared value comparison
`(t[i] * 10^(d-D))^2 ≤ stop^2 * r` holds (in cleared-denominator form). -/
theorem stop_side_iff {t : List ℕ} {D : ℕ} {r b2 : ℚ}
    (hs : t.Pairwise (· < ·))
    (hlb : ∀ m ∈ t, 10 ^ D ≤ m) (hub : ∀ m ∈ t, m < 10 ^ (D + 1))
    (hr : 0 < r) (hb : 0 < b2) {i : ℕ} (hi : i < t.length) (d : ℤ) :
    (d < stopDec r b2 ∨ (d = stopDec r b2 ∧ i < stopIdx t D r b2)) ↔
      (t.getD i 0 : ℚ) ^ 2 * 100 ^ d ≤ b2 * r * 100 ^ (D : ℤ) := by
  have hB : (0 : ℚ) < b2 * r := mul_pos hb hr
  have hd2 : stopDec r b2 = Int.log 100 (b2 * r) := by
    rw [stopDec, qMul_eq, intLogD_eq]
  have f1 : (100 : ℚ) ^ Int.log 100 (b2 * r) ≤ b2 * r :=
    Int.zpow_log_le_self (by norm_num) hB
  have f2 : b2 * r < (100 : ℚ) ^ (Int.log 100 (b2 * r) + 1) :=
    Int.lt_zpow_succ_log_self (by norm_num) _
  obtain ⟨m2_lb, m2_ub⟩ := entry_sq_bounds hlb hub hi
  rcases lt_trichotomy d (stopDec r b2) with hlt | heq | hgt
  · constructor
    · intro _
      refine le_of_lt ?_
      calc (t.getD i 0 : ℚ) ^ 2 * 100 ^ d
          < (100 : ℚ) ^ ((D : ℤ) + 1) * 100 ^ d :=
            mul_lt_mul_of_pos_right m2_ub (zpow_pos (by norm_num) d)
        _ = (100 : ℚ) ^ ((D : ℤ) + 1 + d) := by
            rw [← zpow_add₀ (by norm_num : (100 : ℚ) ≠ 0)]
        _ ≤ (100 : ℚ) ^ ((D : ℤ) + Int.log 100 (b2 * r)) := by
            refine zpow_le_zpow_right₀ (by norm_num) ?_
            rw [hd2] at hlt
            omega
        _ = (100 : ℚ) ^ (D : ℤ) * 100 ^ Int.log 100 (b2 * r) := by
            rw [← zpow_add₀ (by norm_num : (100 : ℚ) ≠ 0)]
        _ ≤ (100 : ℚ) ^ (D : ℤ) * (b2 * r) :=
            mul_le_mul_of_nonneg_left f1 (zpow_pos (by norm_num : (0:ℚ) < 100) (D : ℤ)).le
        _ = b2 * r * 100 ^ (D : ℤ) := by ring
    · intro _
      exact Or.inl hlt
  · rw [heq]
    simp only [lt_irrefl, false_or, true_and]
    rw [lt_stopIdx_iff hs hi, hd2]
  · constructor
    · intro h
      rcases h with h | ⟨h, _⟩
      · omega
      · omega
    · intro h
      exfalso
      have hcontra : b2 * r * 100 ^ (D : ℤ) < (t.getD i 0 : ℚ) ^ 2 * 100 ^ d := by
        calc b2 * r * 100 ^ (D : ℤ)
            < (100 : ℚ) ^ (Int.log 100 (b2 * r) + 1) * 100 ^ (D : ℤ) :=
              mul_lt_mul_of_pos_right f2 (zpow_pos (by norm_num) _)
          _ = (100 : ℚ) ^ (Int.log 100 (b2 * r) + 1 + (D : ℤ)) := by
              rw [← zpow_add₀ (by norm_num : (100 : ℚ) ≠ 0)]
          _ ≤ (100 : ℚ) ^ (d + (D : ℤ)) := by
              refine zpow_le_zpow_right₀ (by norm_num) ?_
              rw [hd2] at hgt
              omega
          _ = (100 : ℚ) ^ (D : ℤ) * 100 ^ d := by
              rw [← zpow_add₀ (by norm_num : (100 : ℚ) ≠ 0)]
              ring_nf
          _ ≤ (t.getD i 0 : ℚ) ^ 2 * 100 ^ d :=
              mul_le_mul_of_nonneg_right m2_lb (zpow_pos (by norm_num : (0:ℚ) < 100) d).le
      exact absurd h (not_le.mpr hcontra)

/-- Start-side characterisation: a loop position `(d, i)` lies weakly after the
(wrapped) start position exactly when the squared value comparison
`start^2 ≤ (t[i] * 10^(d-D))^2 * r` holds (in cleared-denominator form). -/
theorem start_side_iff {t : List ℕ} {D : ℕ} {r a2 : ℚ}
    (hs : t.Pairwise (· < ·))
    (hlb : ∀ m ∈ t, 10 ^ D ≤ m) (hub : ∀ m ∈ t, m < 10 ^ (D + 1))
    (hr : 0 < r) (ha : 0 < a2) {i : ℕ} (hi : i < t.length) (d : ℤ) :
    (startDec t D r a2 < d ∨ (startDec t D r a2 = d ∧ startIdx t D r a2 ≤ i)) ↔
      a2 * 100 ^ (D : ℤ) ≤ (t.getD i 0 : ℚ) ^ 2 * r * 100 ^ d := by
  have hA : (0 : ℚ) < a2 / r := div_pos ha hr
  have hd1 : intLogD 100 (qDiv a2 r) = Int.log 100 (a2 / r) := by
    rw [qDiv_eq, intLogD_eq]
  set d1 := Int.log 100 (a2 / r) with hd1def
  have f1 : (100 : ℚ) ^ d1 * r ≤ a2 := by
    have h1 : (100 : ℚ) ^ Int.log 100 (a2 / r) ≤ a2 / r :=
      Int.zpow_log_le_self (by norm_num) hA
    rw [hd1def]
    exact (le_div_iff₀ hr).1 h1
  have f2 : a2 < (100 : ℚ) ^ (d1 + 1) * r := by
    have h1 : a2 / r < (100 : ℚ) ^ (Int.log 100 (a2 / r) + 1) :=
      Int.lt_zpow_succ_log_self (by norm_num) (a2 / r)
    rw [hd1def]
    exact (div_lt_iff₀ hr).1 h1
  obtain ⟨m2_lb, m2_ub⟩ := entry_sq_bounds hlb hub hi
  have big : ∀ e : ℤ, d1 < e → a2 * 100 ^ (D : ℤ) < (t.getD i 0 : ℚ) ^ 2 * r * 100 ^ e := by
    intro e he
    calc a2 * 100 ^ (D : ℤ)
        < (100 : ℚ) ^ (d1 + 1) * r * 100 ^ (D : ℤ) :=
          mul_lt_mul_of_pos_right f2 (zpow_pos (by norm_num) _)
      _ ≤ (100 : ℚ) ^ e * r * 100 ^ (D : ℤ) := by
          have : (100 : ℚ) ^ (d1 + 1) ≤ (100 : ℚ) ^ e :=
            zpow_le_zpow_right₀ (by norm_num) (by omega)
          exact mul_le_mul_of_nonneg_right
            (mul_le_mul_of_nonneg_right this hr.le) (zpow_pos (by norm_num : (0:ℚ) < 100) _).le
      _ = (100 : ℚ) ^ (D : ℤ) * r * 100 ^ e := by
          rw [mul_right_comm, mul_right_comm ((100:ℚ) ^ (D : ℤ)) r]
          rw [mul_comm ((100:ℚ) ^ e) ((100:ℚ) ^ (D : ℤ))]
      _ ≤ (t.getD i 0 : ℚ) ^ 2 * r * 100 ^ e := by
          exact mul_le_mul_of_nonneg_right
            (mul_le_mul_of_nonneg_right m2_lb hr.le) (zpow_pos (by norm_num : (0:ℚ) < 100) _).le
  have zp_add : ∀ x y : ℤ, (100 : ℚ) ^ x * (100 : ℚ) ^ y = (100 : ℚ) ^ (x + y) :=
    fun x y => (zpow_add₀ (by norm_num : (100 : ℚ) ≠ 0) x y).symm
  have small : ∀ e : ℤ, e < d1 → (t.getD i 0 : ℚ) ^ 2 * r * 100 ^ e < a2 * 100 ^ (D : ℤ) := by
    intro e he
    calc (t.getD i 0 : ℚ) ^ 2 * r * 100 ^ e
        < (100 : ℚ) ^ ((D : ℤ) + 1) * r * 100 ^ e := by
          exact mul_lt_mul_of_pos_right
            (mul_lt_mul_of_pos_right m2_ub hr) (zpow_pos (by norm_num) _)
      _ = r * (100 : ℚ) ^ ((D : ℤ) + 1 + e) := by
          rw [zpow_add₀ (by norm_num : (100 : ℚ) ≠ 0) ((D : ℤ) + 1) e]
          ring
      _ ≤ r * (100 : ℚ) ^ (d1 + (D : ℤ)) := by
          refine mul_le_mul_of_nonneg_left ?_ hr.le
          exact zpow_le_zpow_right₀ (by norm_num) (by omega)
      _ = ((100 : ℚ) ^ d1 * r) * 100 ^ (D : ℤ) := by
          rw [zpow_add₀ (by norm_num : (100 : ℚ) ≠ 0) d1 (D : ℤ)]
          ring
      _ ≤ a2 * 100 ^ (D : ℤ) :=
          mul_le_mul_of_nonneg_right f1 (zpow_pos (by norm_num : (0:ℚ) < 100) _).le
  by_cases hw : startIdxRaw t D r a2 (intLogD 100 (qDiv a2 r)) = t.length
  · rw [startDec, startIdx, if_pos hw, if_pos hw, hd1]
    rw [hd1] at hw
    have hpred : (t.getD i 0 : ℚ) ^ 2 * r * 100 ^ d1 < a2 * 100 ^ (D : ℤ) := by
      have hlt : i < startIdxRaw t D r a2 d1 := by omega
      rwa [lt_startIdxRaw_iff hs hr hi] at hlt
    constructor
    · rintro (h | ⟨h, -⟩)
      · exact (big d (by omega)).le
      · exact (big d (by omega)).le
    · intro h
      rcases lt_trichotomy d1 d with hlt | heq | hgt
      · rcases eq_or_lt_of_le (show d1 + 1 ≤ d by omega) with h1 | h1
        · exact Or.inr ⟨h1, Nat.zero_le i⟩
        · exact Or.inl h1
      · exfalso
        rw [← heq] at h
        exact absurd h (not_le.mpr hpred)
      · exact absurd h (not_le.mpr (small d hgt))
  · rw [startDec, startIdx, if_neg hw, if_neg hw, hd1]
    rw [hd1] at hw
    rcases lt_trichotomy d1 d with hlt | heq | hgt
    · constructor
      · intro _
        exact (big d hlt).le
      · intro _
        exact Or.inl hlt
    · subst heq
      constructor
      · rintro (h | ⟨-, h⟩)
        · omega
        · have hge : ¬ i < startIdxRaw t D r a2 d1 := by omega
          rw [lt_startIdxRaw_iff hs hr hi] at hge
          exact not_lt.mp hge
      · intro h
        refine Or.inr ⟨rfl, ?_⟩
        have hnot : ¬ (t.getD i 0 : ℚ) ^ 2 * r * 100 ^ d1 < a2 * 100 ^ (D : ℤ) := not_lt.mpr h
        rw [← lt_startIdxRaw_iff hs hr hi] at hnot
        omega
    · constructor
      · rintro (h | ⟨h, -⟩)
        · omega
        · omega
      · intro h
        exact absurd h (not_le.mpr (small d hgt))

theorem sq_zpow_ten (e : ℤ) : ((10 : ℚ) ^ e) ^ 2 = (100 : ℚ) ^ e := by
  rw [← zpow_natCast ((10 : ℚ) ^ e) 2, ← zpow_mul, mul_comm, zpow_mul]
  norm_num

/-- Membership characterisation of the `erange` loop: the produced list
contains exactly the standard values (table entry times a power of ten) whose
square lies in `[a2, b2]`, i.e. exactly the standard values in
`[start, stop]`.  The epsilon widening only ever adds border positions that
the final inclusion filter removes again. -/
theorem mem_enumRange {t : List ℕ} {D : ℕ} {r a2 b2 : ℚ}
    (hs : t.Pairwise (· < ·))
    (hlb : ∀ m ∈ t, 10 ^ D ≤ m) (hub : ∀ m ∈ t, m < 10 ^ (D + 1))
    (hr1 : 1 ≤ r) (ha : 0 < a2) (hb : 0 < b2) (v : ℚ) :
    v ∈ enumRange t D r a2 b2 ↔
      ((∃ m ∈ t, ∃ e : ℤ, v = (m : ℚ) * 10 ^ e) ∧ a2 ≤ v ^ 2 ∧ v ^ 2 ≤ b2) := by
  have hr : (0 : ℚ) < r := lt_of_lt_of_le one_pos hr1
  rw [enumRange]
  constructor
  · intro hv
    obtain ⟨d, hd, hv⟩ := List.mem_flatMap.1 hv
    obtain ⟨j, hjN, rfl⟩ := List.mem_map.1 hd
    rw [erChunk] at hv
    obtain ⟨hv, hfilter⟩ := List.mem_filter.1 hv
    obtain ⟨i, hiR, rfl⟩ := List.mem_map.1 hv
    rw [List.mem_range'_1] at hiR
    obtain ⟨hilo, hihi⟩ := hiR
    rw [Bool.and_eq_true, decide_eq_true_eq, decide_eq_true_eq] at hfilter
    set d : ℤ := startDec t D r a2 + (j : ℤ) with hdj
    have hi : i < t.length := by
      rcases eq_or_ne d (stopDec r b2) with hd2 | hd2
      · have h1 : i < (if d = stopDec r b2 then stopIdx t D r b2 else t.length) := by omega
        rw [if_pos hd2] at h1
        exact lt_of_lt_of_le h1 (List.countP_le_length _)
      · have h1 : i < (if d = stopDec r b2 then stopIdx t D r b2 else t.length) := by omega
        rwa [if_neg hd2] at h1
    have hval : round_sig (qMul (t.getD i 0 : ℚ) (qpow 10 (d - (D : ℤ)))) ((D : ℤ) + 1)
        = (t.getD i 0 : ℚ) * 10 ^ (d - (D : ℤ)) := by
      rw [qMul_eq, qpow_eq,
        round_sig_table _ _ _ (hlb _ (getD_mem_of_lt hi)) (hub _ (getD_mem_of_lt hi))]
    rw [hval] at hfilter ⊢
    exact ⟨⟨t.getD i 0, getD_mem_of_lt hi, d - (D : ℤ), rfl⟩, hfilter.1, hfilter.2⟩
  · rintro ⟨⟨m, hm, e, rfl⟩, hfa, hfb⟩
    obtain ⟨i, hi, hgi⟩ : ∃ i, i < t.length ∧ t.getD i 0 = m := by
      obtain ⟨i, hi, hgi⟩ := List.mem_iff_getElem.1 hm
      exact ⟨i, hi, by rw [List.getD_eq_getElem t 0 hi, hgi]⟩
    have hv2 : ((m : ℚ) * 10 ^ e) ^ 2 = (m : ℚ) ^ 2 * 100 ^ e := by
      rw [mul_pow, sq_zpow_ten]
    set d : ℤ := e + (D : ℤ) with hd
    have h100D : (0 : ℚ) < 100 ^ (D : ℤ) := zpow_pos (by norm_num) _
    have h100e : (0 : ℚ) < 100 ^ e := zpow_pos (by norm_num) _
    have hsplit : (100 : ℚ) ^ d = 100 ^ e * 100 ^ (D : ℤ) :=
      zpow_add₀ (by norm_num : (100 : ℚ) ≠ 0) e (D : ℤ)
    have hCstart : a2 * 100 ^ (D : ℤ) ≤ (t.getD i 0 : ℚ) ^ 2 * r * 100 ^ d := by
      rw [hgi, hsplit]
      have h1 : a2 * 100 ^ (D : ℤ) ≤ (m : ℚ) ^ 2 * 100 ^ e * 100 ^ (D : ℤ) := by
        rw [← hv2]
        exact mul_le_mul_of_nonneg_right hfa h100D.le
      refine le_trans h1 ?_
      have h2 : (m : ℚ) ^ 2 * 100 ^ e * 100 ^ (D : ℤ) * 1 ≤
          (m : ℚ) ^ 2 * 100 ^ e * 100 ^ (D : ℤ) * r := by
        refine mul_le_mul_of_nonneg_left hr1 ?_
        positivity
      calc (m : ℚ) ^ 2 * 100 ^ e * 100 ^ (D : ℤ)
          = (m : ℚ) ^ 2 * 100 ^ e * 100 ^ (D : ℤ) * 1 := by ring
        _ ≤ (m : ℚ) ^ 2 * 100 ^ e * 100 ^ (D : ℤ) * r := h2
        _ = (m : ℚ) ^ 2 * r * (100 ^ e * 100 ^ (D : ℤ)) := by ring
    have hCstop : (t.getD i 0 : ℚ) ^ 2 * 100 ^ d ≤ b2 * r * 100 ^ (D : ℤ) := by
      rw [hgi, hsplit]
      have h1 : (m : ℚ) ^ 2 * (100 ^ e * 100 ^ (D : ℤ)) ≤ b2 * 100 ^ (D : ℤ) := by
        rw [← mul_assoc, ← hv2]
        exact mul_le_mul_of_nonneg_right hfb h100D.le
      refine le_trans h1 ?_
      calc b2 * 100 ^ (D : ℤ) = b2 * 1 * 100 ^ (D : ℤ) := by ring
        _ ≤ b2 * r * 100 ^ (D : ℤ) := by
            refine mul_le_mul_of_nonneg_right ?_ h100D.le
            exact mul_le_mul_of_nonneg_left hr1 hb.le
    have hstart := (start_side_iff hs hlb hub hr ha hi d).2 hCstart
    have hstop := (stop_side_iff hs hlb hub hr hb hi d).2 hCstop
    have hdlo : startDec t D r a2 ≤ d := by
      rcases hstart with h | ⟨h, -⟩
      · omega
      · omega
    have hdhi : d ≤ stopDec r b2 := by
      rcases hstop with h | ⟨h, -⟩
      · omega
      · omega
    have hval : round_sig (qMul (t.getD i 0 : ℚ) (qpow 10 (d - (D : ℤ)))) ((D : ℤ) + 1)
        = (m : ℚ) * 10 ^ e := by
      rw [qMul_eq, qpow_eq, hgi, show d - (D : ℤ) = e by omega,
        round_sig_table _ _ _ (hlb _ hm) (hub _ hm)]
    have hj1 : (d - startDec t D r a2).toNat < (stopDec r b2 + 1 - startDec t D r a2).toNat := by
      omega
    have hj2 : startDec t D r a2 + ((d - startDec t D r a2).toNat : ℤ) = d := by
      omega
    refine List.mem_flatMap.2 ⟨d, ?_, ?_⟩
    · exact List.mem_map.2 ⟨(d - startDec t D r a2).toNat, List.mem_range.2 hj1, hj2⟩
    · rw [erChunk]
      refine List.mem_filter.2 ⟨?_, ?_⟩
      · refine List.mem_map.2 ⟨i, List.mem_range'_1.2 ⟨?_, ?_⟩, hval⟩
        · by_cases hds : d = startDec t D r a2
          · rw [if_pos hds]
            rcases hstart with h | ⟨-, h⟩
            · omega
            · exact h
          · rw [if_neg hds]
            omega
        · have hhi : i < (if d = stopDec r b2 then stopIdx t D r b2 else t.length) := by
            by_cases hds : d = stopDec r b2
            · rw [if_pos hds]
              rcases hstop with h | ⟨-, h⟩
              · omega
              · exact h
            · rw [if_neg hds]
              omega
          have hlo : (if d = startDec t D r a2 then startIdx t D r a2 else 0) ≤ i := by
            by_cases hds : d = startDec t D r a2
            · rw [if_pos hds]
              rcases hstart with h | ⟨-, h⟩
              · omega
              · exact h
            · rw [if_neg hds]
              omega
          omega
      · rw [Bool.and_eq_true, decide_eq_true_eq, decide_eq_true_eq]
        exact ⟨hfa, hfb⟩

/-- Every element of the decade-`d` chunk is a value in `[10^d, 10^(d+1))`. -/
theorem erChunk_mem_shape {t : List ℕ} {D : ℕ} {r a2 b2 : ℚ}
    (hlb : ∀ m ∈ t, 10 ^ D ≤ m) (hub : ∀ m ∈ t, m < 10 ^ (D + 1)) {d : ℤ} {x : ℚ}
    (hx : x ∈ erChunk t D r a2 b2 d) :
    ∃ i, i < t.length ∧ x = (t.getD i 0 : ℚ) * 10 ^ (d - (D : ℤ)) := by
  rw [erChunk] at hx
  obtain ⟨hx, -⟩ := List.mem_filter.1 hx
  obtain ⟨i, hiR, rfl⟩ := List.mem_map.1 hx
  rw [List.mem_range'_1] at hiR
  have hi : i < t.length := by
    have h2 : (if d = stopDec r b2 then stopIdx t D r b2 else t.length) ≤ t.length := by
      by_cases hds : d = stopDec r b2
      · rw [if_pos hds]
        exact List.countP_le_length _
      · rw [if_neg hds]
    omega
  refine ⟨i, hi, ?_⟩
  rw [qMul_eq, qpow_eq,
    round_sig_table _ _ _ (hlb _ (getD_mem_of_lt hi)) (hub _ (getD_mem_of_lt hi))]

theorem erChunk_bounds {t : List ℕ} {D : ℕ} {r a2 b2 : ℚ}
    (hlb : ∀ m ∈ t, 10 ^ D ≤ m) (hub : ∀ m ∈ t, m < 10 ^ (D + 1)) {d : ℤ} {x : ℚ}
    (hx : x ∈ erChunk t D r a2 b2 d) :
    (10 : ℚ) ^ d ≤ x ∧ x < (10 : ℚ) ^ (d + 1) := by
  obtain ⟨i, hi, rfl⟩ := erChunk_mem_shape hlb hub hx
  have hmem := getD_mem_of_lt hi
  have hzp : (0 : ℚ) < (10 : ℚ) ^ (d - (D : ℤ)) := zpow_pos (by norm_num) _
  constructor
  · have h1 : ((10 : ℚ)) ^ (D : ℤ) ≤ (t.getD i 0 : ℚ) := by
      rw [zpow_natCast]
      exact_mod_cast hlb _ hmem
    calc (10 : ℚ) ^ d = (10 : ℚ) ^ (D : ℤ) * 10 ^ (d - (D : ℤ)) := by
          rw [← zpow_add₀ (by norm_num : (10 : ℚ) ≠ 0)]
          ring_nf
      _ ≤ (t.getD i 0 : ℚ) * 10 ^ (d - (D : ℤ)) := mul_le_mul_of_nonneg_right h1 hzp.le
  · have h2 : (t.getD i 0 : ℚ) < ((10 : ℚ)) ^ ((D : ℤ) + 1) := by
      rw [show (D : ℤ) + 1 = ((D + 1 : ℕ) : ℤ) by push_cast; ring, zpow_natCast]
      exact_mod_cast hub _ hmem
    calc (t.getD i 0 : ℚ) * 10 ^ (d - (D : ℤ))
        < (10 : ℚ) ^ ((D : ℤ) + 1) * 10 ^ (d - (D : ℤ)) := mul_lt_mul_of_pos_right h2 hzp
      _ = (10 : ℚ) ^ (d + 1) := by
          rw [← zpow_add₀ (by norm_num : (10 : ℚ) ≠ 0)]
          ring_nf

/-- The list produced by the `erange` loop is strictly increasing: the table is
strictly increasing inside a decade, and a whole decade sits strictly below the
next one. -/
theorem pairwise_enumRange {t : List ℕ} {D : ℕ} {r a2 b2 : ℚ}
    (hs : t.Pairwise (· < ·))
    (hlb : ∀ m ∈ t, 10 ^ D ≤ m) (hub : ∀ m ∈ t, m < 10 ^ (D + 1)) :
    (enumRange t D r a2 b2).Pairwise (· < ·) := by
  rw [enumRange,
    show ((List.range (stopDec r b2 + 1 - startDec t D r a2).toNat).map
        (fun j : ℕ => startDec t D r a2 + (j : ℤ))).flatMap (erChunk t D r a2 b2)
      = (((List.range (stopDec r b2 + 1 - startDec t D r a2).toNat).map
        (fun j : ℕ => startDec t D r a2 + (j : ℤ))).map (erChunk t D r a2 b2)).flatten from rfl,
    List.pairwise_flatten]
  constructor
  · intro l hl
    obtain ⟨d, -, rfl⟩ := List.mem_map.1 hl
    rw [erChunk]
    refine List.Pairwise.filter _ ?_
    rw [List.pairwise_map]
    refine (List.pairwise_lt_range' _ _).imp_of_mem ?_
    intro i j hiR hjR hij
    rw [List.mem_range'_1] at hiR hjR
    have hup : (if d = stopDec r b2 then stopIdx t D r b2 else t.length) ≤ t.length := by
      by_cases hds : d = stopDec r b2
      · rw [if_pos hds]
        exact List.countP_le_length _
      · rw [if_neg hds]
    have hj : j < t.length := by omega
    have hi : i < t.length := by omega
    have hij' : (t.getD i 0 : ℚ) < (t.getD j 0 : ℚ) := by
      have := List.pairwise_iff_getElem.1 hs i j hi hj hij
      rw [List.getD_eq_getElem t 0 hi, List.getD_eq_getElem t 0 hj]
      exact_mod_cast this
    simp only [qMul_eq, qpow_eq]
    rw [round_sig_table _ _ _ (hlb _ (getD_mem_of_lt hi)) (hub _ (getD_mem_of_lt hi)),
      round_sig_table _ _ _ (hlb _ (getD_mem_of_lt hj)) (hub _ (getD_mem_of_lt hj))]
    exact mul_lt_mul_of_pos_right hij' (zpow_pos (by norm_num) _)
  · rw [List.pairwise_map, List.pairwise_map]
    refine (List.pairwise_lt_range _).imp_of_mem ?_
    intro j j' _ _ hjj x hx y hy
    have hd : startDec t D r a2 + (j : ℤ) < startDec t D r a2 + (j' : ℤ) := by omega
    have hxb := (erChunk_bounds hlb hub hx).2
    have hyb := (erChunk_bounds hlb hub hy).1
    calc x < (10 : ℚ) ^ (startDec t D r a2 + (j : ℤ) + 1) := hxb
      _ ≤ (10 : ℚ) ^ (startDec t D r a2 + (j' : ℤ)) :=
          zpow_le_zpow_right₀ (by norm_num) (by omega)
      _ ≤ y := hyb

/-! ## Per-series table facts (decidable) and the `erange` wrapper -/

theorem tbl_sorted (k : ESeries) : (_E k).Pairwise (· < ·) := by
  cases k <;> decide

theorem tbl_lb (k : ESeries) : ∀ m ∈ _E k, 10 ^ seriesDecade k ≤ m := by
  cases k <;> decide

theorem tbl_ub (k : ESeries) : ∀ m ∈ _E k, m < 10 ^ (seriesDecade k + 1) := by
  cases k <;> decide

theorem tbl_pow10 (k : ESeries) : pow10Exp? ((_E k).headD 0) = some (seriesDecade k) := by
  cases k <;> decide

theorem tbl_r_one (k : ESeries) : 1 ≤ lastRatio k := by
  cases k <;> decide

theorem tbl_len (k : ESeries) : (_E k).length = seriesNum k := by
  cases k <;> decide

theorem tbl_ne (k : ESeries) : _E k ≠ [] := by
  cases k <;> decide

theorem tbl_head (k : ESeries) : (_E k).headD 0 = 10 ^ seriesDecade k := by
  cases k <;> decide

theorem minE_pos : (0 : ℚ) < minE := by decide

theorem headD_mem {t : List ℕ} (h : t ≠ []) : t.headD 0 ∈ t := by
  cases t with
  | nil => exact absurd rfl h
  | cons x xs => exact List.mem_cons_self x xs

/-- `assert stop_index != 0` can never fire: the first table entry has mantissa
exactly `0`, below every stop mantissa. -/
theorem stopIdx_pos {t : List ℕ} {D : ℕ} {r b2 : ℚ}
    (hhead : t.headD 0 = 10 ^ D) (hne : t ≠ []) (hB : 0 < b2 * r) :
    0 < stopIdx t D r b2 := by
  rw [stopIdx, List.countP_pos_iff]
  refine ⟨t.headD 0, headD_mem hne, ?_⟩
  simp only [qMul_eq, qpow_eq, decide_eq_true_eq, intLogD_eq, hhead]
  have he : ((10 ^ D : ℕ) : ℚ) ^ 2 = (100 : ℚ) ^ (D : ℤ) := by
    rw [zpow_natCast]
    push_cast
    rw [← pow_mul, mul_comm, pow_mul]
    norm_num
  rw [he]
  have hlog : (100 : ℚ) ^ Int.log 100 (b2 * r) ≤ b2 * r :=
    Int.zpow_log_le_self (by norm_num) hB
  calc (100 : ℚ) ^ (D : ℤ) * 100 ^ Int.log 100 (b2 * r)
      ≤ 100 ^ (D : ℤ) * (b2 * r) :=
        mul_le_mul_of_nonneg_left hlog (zpow_pos (by norm_num : (0:ℚ) < 100) _).le
    _ = b2 * r * 100 ^ (D : ℤ) := mul_comm _ _

/-- After the range validation, `erange` always succeeds: the first table
entry is a power of ten and the stop index is positive. -/
theorem erangeCore_ok (k : ESeries) {a2 b2 : ℚ} (hb : 0 < b2) :
    erangeCore k a2 b2 =
      .ok (enumRange (_E k) (seriesDecade k) (lastRatio k) a2 b2) := by
  rw [erangeCore, tbl_pow10 k]
  have hr : (0 : ℚ) < lastRatio k := lt_of_lt_of_le one_pos (tbl_r_one k)
  dsimp only
  rw [if_neg (stopIdx_pos (tbl_head k) (tbl_ne k) (mul_pos hb hr)).ne']

/-- The validated `erange`: for `minE ≤ start ≤ stop` no error is raised and
the loop output is returned. -/
theorem erange_ok (k : ESeries) {start stop : ℚ} (h1 : minE ≤ start) (h2 : start ≤ stop) :
    erange k start stop =
      .ok (enumRange (_E k) (seriesDecade k) (lastRatio k) (start ^ 2) (stop ^ 2)) := by
  have hstop : minE ≤ stop := le_trans h1 h2
  rw [erange, if_neg (not_lt.2 h1), if_neg (not_lt.2 hstop), if_neg (by
    simp only [not_not]
    exact h2)]
  have hs0 : (0 : ℚ) < stop := lt_of_lt_of_le minE_pos hstop
  exact erangeCore_ok k (pow_pos hs0 2)

/-- Positivity and square/order transfer for the standard values. -/
theorem std_pos {t : List ℕ} {D : ℕ} (hlb : ∀ m ∈ t, 10 ^ D ≤ m)
    {m : ℕ} (hm : m ∈ t) (e : ℤ) : (0 : ℚ) < (m : ℚ) * 10 ^ e := by
  have h1 : 0 < m := lt_of_lt_of_le (Nat.pos_pow_of_pos D (by norm_num)) (hlb m hm)
  have : (0 : ℚ) < (m : ℚ) := by exact_mod_cast h1
  exact mul_pos this (zpow_pos (by norm_num) e)

theorem le_of_sq_le_sq' {a v : ℚ} (ha : 0 ≤ a) (hv : 0 ≤ v) (h : a ^ 2 ≤ v ^ 2) : a ≤ v := by
  by_contra hc
  exact absurd h (not_le.2 (pow_lt_pow_left (not_le.1 hc) hv (by norm_num)))

theorem sq_le_of_le {a v : ℚ} (hv : 0 ≤ v) (h : v ≤ a) : v ^ 2 ≤ a ^ 2 :=
  pow_le_pow_left hv h 2

/-! ## C6: `erange` output is finite, strictly increasing, and within bounds -/

/-- C6: for every series key and every valid pair `start ≤ stop`, `erange`
succeeds with a (finite) list that is strictly increasing in numeric value —
hence duplicate-free — and every yielded value lies in `[start, stop]`.
`erange` is a pure function of its arguments, so every evaluation of the call
returns the same list (the generator is restartable, calls independent). -/
theorem erange_ordered (k : ESeries) (start stop : ℚ)
    (h1 : minE ≤ start) (h2 : start ≤ stop) :
    ∃ L, erange k start stop = .ok L ∧ L.Pairwise (· < ·) ∧
      ∀ v ∈ L, start ≤ v ∧ v ≤ stop := by
  have hs0 : (0 : ℚ) < start := lt_of_lt_of_le minE_pos h1
  have ht0 : (0 : ℚ) < stop := lt_of_lt_of_le hs0 h2
  refine ⟨_, erange_ok k h1 h2,
    pairwise_enumRange (tbl_sorted k) (tbl_lb k) (tbl_ub k), ?_⟩
  intro v hv
  rw [mem_enumRange (tbl_sorted k) (tbl_lb k) (tbl_ub k) (tbl_r_one k)
    (pow_pos hs0 2) (pow_pos ht0 2)] at hv
  obtain ⟨⟨m, hm, e, rfl⟩, hfa, hfb⟩ := hv
  have hv0 : (0 : ℚ) < (m : ℚ) * 10 ^ e := std_pos (tbl_lb k) hm e
  exact ⟨le_of_sq_le_sq' hs0.le hv0.le hfa, le_of_sq_le_sq' hv0.le ht0.le hfb⟩

/-- C6 witness: the theorem applied at `erange(E12, 21, 147)`. -/
theorem erange_ordered_witness :
    minE ≤ (21 : ℚ) ∧ (21 : ℚ) ≤ 147 ∧
      (∃ L, erange .E12 21 147 = .ok L ∧ L.Pairwise (· < ·) ∧
        ∀ v ∈ L, (21 : ℚ) ≤ v ∧ v ≤ 147) :=
  ⟨by decide, by decide, erange_ordered .E12 21 147 (by decide) (by decide)⟩

/-! ## C2: decade cardinality -/

theorem eq_of_sq_eq {x y : ℚ} (hx : 0 ≤ x) (hy : 0 ≤ y) (h : x ^ 2 = y ^ 2) : x = y :=
  le_antisymm (le_of_sq_le_sq' hx hy h.le) (le_of_sq_le_sq' hy hx h.ge)

theorem nodup_of_sorted {l : List ℚ} (h : l.Pairwise (· < ·)) : l.Nodup :=
  h.imp ne_of_lt

/-- A table entry with `D + 1` digits, scaled by `10^e`, lies in the decade
bracket `[10^(D+e), 10^(D+e+1))`. -/
theorem std_bracket {D m : ℕ} (h1 : 10 ^ D ≤ m) (h2 : m < 10 ^ (D + 1)) (e : ℤ) :
    (10 : ℚ) ^ ((D : ℤ) + e) ≤ (m : ℚ) * 10 ^ e ∧
      (m : ℚ) * 10 ^ e < (10 : ℚ) ^ ((D : ℤ) + e + 1) := by
  constructor
  · rw [zpow_add₀ (by norm_num : (10 : ℚ) ≠ 0)]
    have h : (10 : ℚ) ^ (D : ℤ) ≤ (m : ℚ) := by
      rw [zpow_natCast]
      exact_mod_cast h1
    exact mul_le_mul_of_nonneg_right h (zpow_pos (by norm_num) e).le
  · rw [show (D : ℤ) + e + 1 = ((D + 1 : ℕ) : ℤ) + e by push_cast; ring,
      zpow_add₀ (by norm_num : (10 : ℚ) ≠ 0)]
    have h : (m : ℚ) < (10 : ℚ) ^ ((D + 1 : ℕ) : ℤ) := by
      rw [zpow_natCast]
      exact_mod_cast h2
    exact mul_lt_mul_of_pos_right h (zpow_pos (by norm_num) e)

/-- Exponent pinning: two equal standard values built from entries of the same
`D + 1`-digit table agree in entry and exponent. -/
theorem std_inj {D m m' : ℕ} (h1 : 10 ^ D ≤ m) (h2 : m < 10 ^ (D + 1))
    (h1' : 10 ^ D ≤ m') (h2' : m' < 10 ^ (D + 1)) {E E' : ℤ}
    (heq : (m : ℚ) * 10 ^ E = (m' : ℚ) * 10 ^ E') : m = m' ∧ E = E' := by
  have hEE : E = E' := by
    by_contra hne
    rcases lt_or_gt_of_ne hne with h | h
    · have hx := (std_bracket h1 h2 E).2
      have hy := (std_bracket h1' h2' E').1
      have hmid : (10 : ℚ) ^ ((D : ℤ) + E + 1) ≤ (10 : ℚ) ^ ((D : ℤ) + E') :=
        zpow_le_zpow_right₀ (by norm_num) (by omega)
      exact absurd heq (ne_of_lt (lt_of_lt_of_le hx (le_trans hmid hy)))
    · have hx := (std_bracket h1' h2' E').2
      have hy := (std_bracket h1 h2 E).1
      have hmid : (10 : ℚ) ^ ((D : ℤ) + E' + 1) ≤ (10 : ℚ) ^ ((D : ℤ) + E) :=
        zpow_le_zpow_right₀ (by norm_num) (by omega)
      exact absurd heq (ne_of_gt (lt_of_lt_of_le hx (le_trans hmid hy)))
  subst hEE
  have h := mul_right_cancel₀ (zpow_ne_zero E (by norm_num : (10 : ℚ) ≠ 0)) heq
  exact ⟨Nat.cast_injective h, rfl⟩

/-- Each reference value does land in the squared window `[a2, 100·a2)`. -/
theorem refVal_window {a2 : ℚ} (ha : 0 < a2) {m : ℕ} (hm : 0 < m) :
    a2 ≤ refVal a2 m ^ 2 ∧ refVal a2 m ^ 2 < 100 * a2 := by
  have hmq : (0 : ℚ) < (m : ℚ) ^ 2 := by
    have : (0 : ℚ) < (m : ℚ) := by exact_mod_cast hm
    positivity
  have hq : (0 : ℚ) < (m : ℚ) ^ 2 / a2 := div_pos hmq ha
  have hup : (100 : ℚ) ^ Int.log 100 ((m : ℚ) ^ 2 / a2) ≤ (m : ℚ) ^ 2 / a2 :=
    Int.zpow_log_le_self (by norm_num) hq
  have hlo : (m : ℚ) ^ 2 / a2 < (100 : ℚ) ^ (Int.log 100 ((m : ℚ) ^ 2 / a2) + 1) :=
    Int.lt_zpow_succ_log_self (by norm_num) _
  have hsq : refVal a2 m ^ 2 =
      (m : ℚ) ^ 2 * 100 ^ (-(Int.log 100 ((m : ℚ) ^ 2 / a2))) := by
    rw [refVal, mul_pow, sq_zpow_ten, decExp]
  have hcol0 : (100 : ℚ) ^ Int.log 100 ((m : ℚ) ^ 2 / a2) *
      100 ^ (-(Int.log 100 ((m : ℚ) ^ 2 / a2))) = 1 := by
    rw [← zpow_add₀ (by norm_num : (100 : ℚ) ≠ 0),
      show Int.log 100 ((m : ℚ) ^ 2 / a2) + -(Int.log 100 ((m : ℚ) ^ 2 / a2)) = 0 by ring,
      zpow_zero]
  have hcol1 : (100 : ℚ) ^ (Int.log 100 ((m : ℚ) ^ 2 / a2) + 1) *
      100 ^ (-(Int.log 100 ((m : ℚ) ^ 2 / a2))) = 100 := by
    rw [← zpow_add₀ (by norm_num : (100 : ℚ) ≠ 0),
      show Int.log 100 ((m : ℚ) ^ 2 / a2) + 1 + -(Int.log 100 ((m : ℚ) ^ 2 / a2)) = 1 by
        ring,
      zpow_one]
  constructor
  · rw [hsq]
    have h := (le_div_iff₀ ha).1 hup
    calc a2 = (100 ^ Int.log 100 ((m : ℚ) ^ 2 / a2) * a2) *
          100 ^ (-(Int.log 100 ((m : ℚ) ^ 2 / a2))) := by
          rw [mul_comm ((100 : ℚ) ^ Int.log 100 ((m : ℚ) ^ 2 / a2)) a2, mul_assoc, hcol0,
            mul_one]
      _ ≤ (m : ℚ) ^ 2 * 100 ^ (-(Int.log 100 ((m : ℚ) ^ 2 / a2))) :=
          mul_le_mul_of_nonneg_right h (zpow_pos (by norm_num) _).le
  · rw [hsq]
    have h := (div_lt_iff₀ ha).1 hlo
    calc (m : ℚ) ^ 2 * 100 ^ (-(Int.log 100 ((m : ℚ) ^ 2 / a2)))
        < (100 ^ (Int.log 100 ((m : ℚ) ^ 2 / a2) + 1) * a2) *
            100 ^ (-(Int.log 100 ((m : ℚ) ^ 2 / a2))) :=
          mul_lt_mul_of_pos_right h (zpow_pos (by norm_num) _)
      _ = 100 * a2 := by
          rw [mul_comm ((100 : ℚ) ^ (Int.log 100 ((m : ℚ) ^ 2 / a2) + 1)) a2, mul_assoc,
            hcol1, mul_comm]

/-- The reference list contains exactly the standard values of the squared
window `[a2, 100·a2)`: one per table entry. -/
theorem mem_refList {t : List ℕ} {D : ℕ} (hlb : ∀ m ∈ t, 10 ^ D ≤ m)
    {a2 : ℚ} (ha : 0 < a2) (x : ℚ) :
    x ∈ refList t a2 ↔
      ((∃ m ∈ t, ∃ e : ℤ, x = (m : ℚ) * 10 ^ e) ∧ a2 ≤ x ^ 2 ∧ x ^ 2 < 100 * a2) := by
  constructor
  · intro hx
    obtain ⟨m, hm, rfl⟩ := List.mem_map.1 hx
    have hm0 : 0 < m := lt_of_lt_of_le (Nat.pos_pow_of_pos D (by norm_num)) (hlb m hm)
    exact ⟨⟨m, hm, decExp a2 m, rfl⟩, refVal_window ha hm0⟩
  · rintro ⟨⟨m, hm, e, rfl⟩, hax, hxb⟩
    have hm0 : 0 < m := lt_of_lt_of_le (Nat.pos_pow_of_pos D (by norm_num)) (hlb m hm)
    have hmq : (0 : ℚ) < (m : ℚ) ^ 2 := by
      have : (0 : ℚ) < (m : ℚ) := by exact_mod_cast hm0
      positivity
    rw [mul_pow, sq_zpow_ten] at hax hxb
    have hlog : Int.log 100 ((m : ℚ) ^ 2 / a2) = -e := by
      refine intLog_eq_of (by norm_num) (div_pos hmq ha) ?_ ?_
      · rw [le_div_iff₀ ha]
        calc (100 : ℚ) ^ (-e) * a2 ≤ 100 ^ (-e) * ((m : ℚ) ^ 2 * 100 ^ e) :=
              mul_le_mul_of_nonneg_left hax (zpow_pos (by norm_num) _).le
          _ = (m : ℚ) ^ 2 := by
              rw [mul_comm ((100 : ℚ) ^ (-e)) ((m : ℚ) ^ 2 * 100 ^ e), mul_assoc,
                ← zpow_add₀ (by norm_num : (100 : ℚ) ≠ 0), show e + -e = 0 by ring,
                zpow_zero, mul_one]
      · rw [div_lt_iff₀ ha]
        calc (m : ℚ) ^ 2 = ((m : ℚ) ^ 2 * 100 ^ e) * 100 ^ (-e) := by
              rw [mul_assoc, ← zpow_add₀ (by norm_num : (100 : ℚ) ≠ 0),
                show e + -e = 0 by ring, zpow_zero, mul_one]
          _ < (100 * a2) * 100 ^ (-e) :=
              mul_lt_mul_of_pos_right hxb (zpow_pos (by norm_num) _)
          _ = 100 ^ (-e + 1) * a2 := by
              rw [show (-e + 1 : ℤ) = 1 + -e by ring,
                zpow_add₀ (by norm_num : (100 : ℚ) ≠ 0), zpow_one]
              ring
    have he : decExp a2 m = e := by
      rw [decExp, hlog]
      ring
    exact List.mem_map.2 ⟨m, hm, by rw [refVal, he]⟩

theorem refList_nodup {t : List ℕ} {D : ℕ} (hs : t.Pairwise (· < ·))
    (hlb : ∀ m ∈ t, 10 ^ D ≤ m) (hub : ∀ m ∈ t, m < 10 ^ (D + 1)) (a2 : ℚ) :
    (refList t a2).Nodup := by
  rw [refList]
  refine List.Nodup.map_on ?_ (hs.imp ne_of_lt)
  intro m hm m' hm' hEq
  rw [refVal, refVal] at hEq
  exact (std_inj (hlb m hm) (hub m hm) (hlb m' hm') (hub m' hm') hEq).1

/-- The count of one decade window of the `erange` loop: one value per table
entry, plus the upper bound `10·low` itself exactly when it is standard. -/
theorem decade_length {t : List ℕ} {D : ℕ} {r : ℚ} (hs : t.Pairwise (· < ·))
    (hlb : ∀ m ∈ t, 10 ^ D ≤ m) (hub : ∀ m ∈ t, m < 10 ^ (D + 1)) (hr : 1 ≤ r)
    {low : ℚ} (hl0 : 0 < low) :
    ((∃ m ∈ t, ∃ e : ℤ, 10 * low = (m : ℚ) * 10 ^ e) →
        (enumRange t D r (low ^ 2) ((10 * low) ^ 2)).length = t.length + 1) ∧
      (¬(∃ m ∈ t, ∃ e : ℤ, 10 * low = (m : ℚ) * 10 ^ e) →
        (enumRange t D r (low ^ 2) ((10 * low) ^ 2)).length = t.length) := by
  have hh0 : (0 : ℚ) < 10 * low := by linarith
  have ha : (0 : ℚ) < low ^ 2 := pow_pos hl0 2
  have hb : (0 : ℚ) < (10 * low) ^ 2 := pow_pos hh0 2
  have hb2 : (10 * low) ^ 2 = 100 * low ^ 2 := by ring
  have hnd : (enumRange t D r (low ^ 2) ((10 * low) ^ 2)).Nodup :=
    nodup_of_sorted (pairwise_enumRange hs hlb hub)
  have hcardL := (List.toFinset_card_of_nodup hnd).symm
  have hrefnd := refList_nodup hs hlb hub (low ^ 2)
  have hrlen : (refList t (low ^ 2)).length = t.length := by
    rw [refList, List.length_map]
  constructor
  · intro hstd10
    have h10notref : 10 * low ∉ refList t (low ^ 2) := by
      rw [mem_refList hlb ha]
      rintro ⟨-, -, hlt⟩
      rw [hb2] at hlt
      exact lt_irrefl _ hlt
    have hset : (enumRange t D r (low ^ 2) ((10 * low) ^ 2)).toFinset =
        insert (10 * low) (refList t (low ^ 2)).toFinset := by
      ext x
      rw [Finset.mem_insert, List.mem_toFinset, List.mem_toFinset,
        mem_enumRange hs hlb hub hr ha hb, mem_refList hlb ha]
      constructor
      · rintro ⟨hstd, hax, hxb⟩
        rcases lt_or_eq_of_le hxb with h | h
        · exact Or.inr ⟨hstd, hax, by rw [← hb2]; exact h⟩
        · obtain ⟨m, hm, e, rfl⟩ := hstd
          exact Or.inl (eq_of_sq_eq (std_pos hlb hm e).le hh0.le h)
      · rintro (rfl | ⟨hstd, hax, hxb⟩)
        · refine ⟨hstd10, ?_, le_refl _⟩
          rw [hb2]
          nlinarith
        · exact ⟨hstd, hax, by rw [hb2]; exact hxb.le⟩
    rw [hcardL, hset,
      Finset.card_insert_of_not_mem (by rw [List.mem_toFinset]; exact h10notref),
      List.toFinset_card_of_nodup hrefnd, hrlen]
  · intro hns
    have hset : (enumRange t D r (low ^ 2) ((10 * low) ^ 2)).toFinset =
        (refList t (low ^ 2)).toFinset := by
      ext x
      rw [List.mem_toFinset, List.mem_toFinset, mem_enumRange hs hlb hub hr ha hb,
        mem_refList hlb ha]
      constructor
      · rintro ⟨hstd, hax, hxb⟩
        refine ⟨hstd, hax, ?_⟩
        rcases lt_or_eq_of_le hxb with h | h
        · rw [← hb2]
          exact h
        · obtain ⟨m, hm, e, rfl⟩ := hstd
          have hx10 : (m : ℚ) * 10 ^ e = 10 * low :=
            eq_of_sq_eq (std_pos hlb hm e).le hh0.le h
          exact absurd ⟨m, hm, e, hx10.symm⟩ hns
      · rintro ⟨hstd, hax, hxb⟩
        exact ⟨hstd, hax, by rw [hb2]; exact hxb.le⟩
    rw [hcardL, hset, List.toFinset_card_of_nodup hrefnd, hrlen]

/-- C2: for every series key and every valid `low` (i.e. `minE ≤ low`),
`erange(k, low, 10·low)` succeeds with exactly `seriesNum k` values (the
series' numeric identifier: 3, 6, 12, 24, 48, 96 or 192), plus exactly one
more when `10·low` is itself a standard value of the series. -/
theorem erange_decade_cardinality (k : ESeries) (low : ℚ) (h1 : minE ≤ low) :
    ∃ L, erange k low (10 * low) = .ok L ∧
      ((∃ m ∈ _E k, ∃ e : ℤ, 10 * low = (m : ℚ) * 10 ^ e) →
          L.length = seriesNum k + 1) ∧
      (¬(∃ m ∈ _E k, ∃ e : ℤ, 10 * low = (m : ℚ) * 10 ^ e) →
          L.length = seriesNum k) := by
  have hl0 : (0 : ℚ) < low := lt_of_lt_of_le minE_pos h1
  refine ⟨_, erange_ok k h1 (by linarith), ?_, ?_⟩
  · intro h
    rw [(decade_length (tbl_sorted k) (tbl_lb k) (tbl_ub k) (tbl_r_one k) hl0).1 h,
      tbl_len]
  · intro h
    rw [(decade_length (tbl_sorted k) (tbl_lb k) (tbl_ub k) (tbl_r_one k) hl0).2 h,
      tbl_len]

/-- C2 witness: the theorem applied at `erange(E12, 1, 10)`. -/
theorem erange_decade_cardinality_witness :
    minE ≤ (1 : ℚ) ∧
      ∃ L, erange .E12 1 (10 * 1) = .ok L ∧
        ((∃ m ∈ _E .E12, ∃ e : ℤ, 10 * 1 = (m : ℚ) * 10 ^ e) →
            L.length = seriesNum .E12 + 1) ∧
        (¬(∃ m ∈ _E .E12, ∃ e : ℤ, 10 * 1 = (m : ℚ) * 10 ^ e) →
            L.length = seriesNum .E12) :=
  ⟨by decide, erange_decade_cardinality .E12 1 (by decide)⟩

/-! ## C7: cardinality and sortedness of `find_nearest_few` -/

/-- The geometric scale of each series is at least 1. -/
theorem tbl_s_one (k : ESeries) : 1 ≤ geometricScale k := by
  cases k <;> decide

/-- Adjacent table entries are within one `geometricScale` step of each other
(the scale is the maximum adjacent ratio). -/
theorem tbl_chain (k : ESeries) : ∀ i, i < (_E k).length - 1 →
    ((_E k).getD (i + 1) 0 : ℚ) ≤ qMul (geometricScale k) ((_E k).getD i 0 : ℚ) := by
  cases k <;> decide

/-- The wrap to the next decade is also within one `geometricScale` step:
`10·t₀ ≤ scale·t_last` for every series table. -/
theorem tbl_wrap (k : ESeries) :
    qMul 10 ((_E k).headD 0 : ℚ) ≤
      qMul (geometricScale k) ((_E k).getD ((_E k).length - 1) 0 : ℚ) := by
  cases k <;> decide

theorem headD_eq_getD {t : List ℕ} (h : t ≠ []) : t.headD 0 = t.getD 0 0 := by
  cases t with
  | nil => exact absurd rfl h
  | cons x xs => rfl

/-- Every standard value has a standard successor at most one `scale` step
above it (the next table entry, or the wrap to the next decade). -/
theorem exists_succStd {t : List ℕ} {D : ℕ} {s : ℚ}
    (hs : t.Pairwise (· < ·)) (hub : ∀ m ∈ t, m < 10 ^ (D + 1))
    (hhead : t.headD 0 = 10 ^ D)
    (hchain : ∀ i, i < t.length - 1 → (t.getD (i + 1) 0 : ℚ) ≤ s * (t.getD i 0 : ℚ))
    (hwrap : (10 : ℚ) * (t.headD 0 : ℚ) ≤ s * (t.getD (t.length - 1) 0 : ℚ))
    {m : ℕ} (hm : m ∈ t) (e : ℤ) :
    ∃ m' ∈ t, ∃ e' : ℤ, (m : ℚ) * 10 ^ e < (m' : ℚ) * 10 ^ e' ∧
      (m' : ℚ) * 10 ^ e' ≤ s * ((m : ℚ) * 10 ^ e) := by
  obtain ⟨i, hi, hgi⟩ : ∃ i, i < t.length ∧ t.getD i 0 = m := by
    obtain ⟨i, hi, hgi⟩ := List.mem_iff_getElem.1 hm
    exact ⟨i, hi, by rw [List.getD_eq_getElem t 0 hi, hgi]⟩
  have h10e : (0 : ℚ) < 10 ^ e := zpow_pos (by norm_num) e
  by_cases hlast : i + 1 < t.length
  · refine ⟨t.getD (i + 1) 0, getD_mem_of_lt hlast, e, ?_, ?_⟩
    · have hlt : (m : ℚ) < (t.getD (i + 1) 0 : ℚ) := by
        have := List.pairwise_iff_getElem.1 hs i (i + 1) hi hlast (by omega)
        rw [List.getD_eq_getElem t 0 hlast, ← hgi, List.getD_eq_getElem t 0 hi]
        exact_mod_cast this
      exact mul_lt_mul_of_pos_right hlt h10e
    · have hle : (t.getD (i + 1) 0 : ℚ) ≤ s * (m : ℚ) := by
        rw [← hgi]
        exact hchain i (by omega)
      calc (t.getD (i + 1) 0 : ℚ) * 10 ^ e ≤ (s * (m : ℚ)) * 10 ^ e :=
            mul_le_mul_of_nonneg_right hle h10e.le
        _ = s * ((m : ℚ) * 10 ^ e) := by ring
  · have hieq : i = t.length - 1 := by omega
    have hne : t ≠ [] := List.ne_nil_of_mem hm
    have hmlast : t.getD (t.length - 1) 0 = m := by rw [← hieq, hgi]
    refine ⟨t.headD 0, headD_mem hne, e + 1, ?_, ?_⟩
    · have hm10 : (m : ℚ) < 10 * (t.headD 0 : ℚ) := by
        rw [hhead]
        calc (m : ℚ) < ((10 ^ (D + 1) : ℕ) : ℚ) := by exact_mod_cast hub m hm
          _ = 10 * ((10 ^ D : ℕ) : ℚ) := by push_cast; ring
      calc (m : ℚ) * 10 ^ e < (10 * (t.headD 0 : ℚ)) * 10 ^ e :=
            mul_lt_mul_of_pos_right hm10 h10e
        _ = (t.headD 0 : ℚ) * 10 ^ (e + 1) := by
            rw [zpow_add₀ (by norm_num : (10 : ℚ) ≠ 0), zpow_one]
            ring
    · have hw : (10 : ℚ) * (t.headD 0 : ℚ) ≤ s * (m : ℚ) := by
        rw [← hmlast]
        exact hwrap
      calc (t.headD 0 : ℚ) * 10 ^ (e + 1) = ((10 : ℚ) * (t.headD 0 : ℚ)) * 10 ^ e := by
            rw [zpow_add₀ (by norm_num : (10 : ℚ) ≠ 0), zpow_one]
            ring
        _ ≤ (s * (m : ℚ)) * 10 ^ e := mul_le_mul_of_nonneg_right hw h10e.le
        _ = s * ((m : ℚ) * 10 ^ e) := by ring

/-- Every standard value has a standard predecessor at most one `scale` step
below it. -/
theorem exists_predStd {t : List ℕ} {D : ℕ} {s : ℚ}
    (hs : t.Pairwise (· < ·)) (hub : ∀ m ∈ t, m < 10 ^ (D + 1))
    (hhead : t.headD 0 = 10 ^ D)
    (hchain : ∀ i, i < t.length - 1 → (t.getD (i + 1) 0 : ℚ) ≤ s * (t.getD i 0 : ℚ))
    (hwrap : (10 : ℚ) * (t.headD 0 : ℚ) ≤ s * (t.getD (t.length - 1) 0 : ℚ))
    {m : ℕ} (hm : m ∈ t) (e : ℤ) :
    ∃ m' ∈ t, ∃ e' : ℤ, (m' : ℚ) * 10 ^ e' < (m : ℚ) * 10 ^ e ∧
      (m : ℚ) * 10 ^ e ≤ s * ((m' : ℚ) * 10 ^ e') := by
  obtain ⟨i, hi, hgi⟩ : ∃ i, i < t.length ∧ t.getD i 0 = m := by
    obtain ⟨i, hi, hgi⟩ := List.mem_iff_getElem.1 hm
    exact ⟨i, hi, by rw [List.getD_eq_getElem t 0 hi, hgi]⟩
  have hne : t ≠ [] := List.ne_nil_of_mem hm
  have hlen : 0 < t.length := List.length_pos.2 hne
  by_cases hi0 : i = 0
  · have hm0 : m = 10 ^ D := by
      rw [← hgi, hi0, ← headD_eq_getD hne, hhead]
    have hlastmem : t.getD (t.length - 1) 0 ∈ t := getD_mem_of_lt (by omega)
    have h10e : (0 : ℚ) < 10 ^ (e - 1) := zpow_pos (by norm_num) _
    refine ⟨t.getD (t.length - 1) 0, hlastmem, e - 1, ?_, ?_⟩
    · have hlt : (t.getD (t.length - 1) 0 : ℚ) < 10 * (m : ℚ) := by
        rw [hm0]
        calc (t.getD (t.length - 1) 0 : ℚ) < ((10 ^ (D + 1) : ℕ) : ℚ) := by
              exact_mod_cast hub _ hlastmem
          _ = 10 * ((10 ^ D : ℕ) : ℚ) := by push_cast; ring
      calc (t.getD (t.length - 1) 0 : ℚ) * 10 ^ (e - 1)
          < (10 * (m : ℚ)) * 10 ^ (e - 1) := mul_lt_mul_of_pos_right hlt h10e
        _ = (m : ℚ) * 10 ^ e := by
            rw [show e = (e - 1) + 1 by ring, zpow_add₀ (by norm_num : (10 : ℚ) ≠ 0),
              zpow_one]
            ring
    · have hw : (10 : ℚ) * (m : ℚ) ≤ s * (t.getD (t.length - 1) 0 : ℚ) := by
        have h := hwrap
        rw [headD_eq_getD hne, show t.getD 0 0 = m by rw [← hgi, hi0]] at h
        exact h
      calc (m : ℚ) * 10 ^ e = ((10 : ℚ) * (m : ℚ)) * 10 ^ (e - 1) := by
            rw [show e = (e - 1) + 1 by ring, zpow_add₀ (by norm_num : (10 : ℚ) ≠ 0),
              zpow_one]
            ring
        _ ≤ (s * (t.getD (t.length - 1) 0 : ℚ)) * 10 ^ (e - 1) :=
            mul_le_mul_of_nonneg_right hw h10e.le
        _ = s * ((t.getD (t.length - 1) 0 : ℚ) * 10 ^ (e - 1)) := by ring
  · have hprev : i - 1 < t.length := by omega
    have h10e : (0 : ℚ) < 10 ^ e := zpow_pos (by norm_num) e
    refine ⟨t.getD (i - 1) 0, getD_mem_of_lt hprev, e, ?_, ?_⟩
    · have hlt : (t.getD (i - 1) 0 : ℚ) < (m : ℚ) := by
        have := List.pairwise_iff_getElem.1 hs (i - 1) i hprev hi (by omega)
        rw [← hgi, List.getD_eq_getElem t 0 hprev, List.getD_eq_getElem t 0 hi]
        exact_mod_cast this
      exact mul_lt_mul_of_pos_right hlt h10e
    · have hle : (m : ℚ) ≤ s * (t.getD (i - 1) 0 : ℚ) := by
        have h := hchain (i - 1) (by omega)
        rw [show i - 1 + 1 = i by omega, hgi] at h
        exact h
      calc (m : ℚ) * 10 ^ e ≤ (s * (t.getD (i - 1) 0 : ℚ)) * 10 ^ e :=
            mul_le_mul_of_nonneg_right hle h10e.le
        _ = s * ((t.getD (i - 1) 0 : ℚ) * 10 ^ e) := by ring

theorem exists_min_mem {l : List ℚ} (h : l ≠ []) : ∃ x ∈ l, ∀ y ∈ l, x ≤ y := by
  induction l with
  | nil => exact absurd rfl h
  | cons a as ih =>
      cases as with
      | nil =>
          refine ⟨a, List.mem_cons_self a [], ?_⟩
          intro y hy
          rcases List.mem_cons.1 hy with rfl | hy
          · exact le_rfl
          · simp at hy
      | cons b bs =>
          obtain ⟨x, hx, hxmin⟩ := ih (by simp)
          by_cases hax : a ≤ x
          · refine ⟨a, List.mem_cons_self _ _, ?_⟩
            intro y hy
            rcases List.mem_cons.1 hy with rfl | hy
            · exact le_rfl
            · exact le_trans hax (hxmin y hy)
          · refine ⟨x, List.mem_cons_of_mem a hx, ?_⟩
            intro y hy
            rcases List.mem_cons.1 hy with rfl | hy
            · exact le_of_not_le hax
            · exact hxmin y hy

set_option maxHeartbeats 1000000 in
/-- The `find_nearest_few` window always catches at least three standard
values: the minimal standard value above `start` is within one scale step of
`start`, and its next two successors stay below `stop` because the squared
window spans the sixth power of the scale. -/
theorem three_in_window {t : List ℕ} {D : ℕ} {r s a2 b2 : ℚ}
    (hs : t.Pairwise (· < ·)) (hlb : ∀ m ∈ t, 10 ^ D ≤ m)
    (hub : ∀ m ∈ t, m < 10 ^ (D + 1)) (hhead : t.headD 0 = 10 ^ D)
    (hne : t ≠ [])
    (hchain : ∀ i, i < t.length - 1 → (t.getD (i + 1) 0 : ℚ) ≤ s * (t.getD i 0 : ℚ))
    (hwrap : (10 : ℚ) * (t.headD 0 : ℚ) ≤ s * (t.getD (t.length - 1) 0 : ℚ))
    (hs1 : 1 ≤ s) (hr : 1 ≤ r) (ha : 0 < a2) (hb2 : s ^ 6 * a2 ≤ b2) :
    3 ≤ (enumRange t D r a2 b2).length := by
  have hs0 : (0 : ℚ) < s := lt_of_lt_of_le one_pos hs1
  have hb : (0 : ℚ) < b2 := lt_of_lt_of_le (mul_pos (pow_pos hs0 6) ha) hb2
  have hgrow : ∀ n n' : ℕ, n ≤ n' → s ^ n * a2 ≤ s ^ n' * a2 := fun n n' h =>
    mul_le_mul_of_nonneg_right (pow_le_pow_right₀ hs1 h) ha.le
  have hrne : refList t a2 ≠ [] := by
    rw [refList]
    intro hc
    exact hne (List.map_eq_nil.1 hc)
  obtain ⟨u1, hu1mem, hu1min⟩ := exists_min_mem hrne
  rw [mem_refList hlb ha] at hu1mem
  obtain ⟨⟨m1, hm1, e1, hu1eq⟩, hu1a, hu1b100⟩ := hu1mem
  subst hu1eq
  have hu1pos := std_pos hlb hm1 e1
  obtain ⟨p, hp, ep, hplt, hple⟩ := exists_predStd hs hub hhead hchain hwrap hm1 e1
  have hppos := std_pos hlb hp ep
  have hp2 : ((p : ℚ) * 10 ^ ep) ^ 2 < a2 := by
    by_contra hc
    push_neg at hc
    have hpmem : (p : ℚ) * 10 ^ ep ∈ refList t a2 := by
      rw [mem_refList hlb ha]
      refine ⟨⟨p, hp, ep, rfl⟩, hc, ?_⟩
      exact lt_trans (pow_lt_pow_left hplt hppos.le (by norm_num)) hu1b100
    exact absurd (hu1min _ hpmem) (not_le.2 hplt)
  have hu1sq : ((m1 : ℚ) * 10 ^ e1) ^ 2 ≤ s ^ 2 * a2 := by
    calc ((m1 : ℚ) * 10 ^ e1) ^ 2 ≤ (s * ((p : ℚ) * 10 ^ ep)) ^ 2 :=
          pow_le_pow_left hu1pos.le hple 2
      _ = s ^ 2 * ((p : ℚ) * 10 ^ ep) ^ 2 := mul_pow s _ 2
      _ ≤ s ^ 2 * a2 := mul_le_mul_of_nonneg_left hp2.le (by positivity)
  obtain ⟨m2, hm2, e2, h12, h2le⟩ := exists_succStd hs hub hhead hchain hwrap hm1 e1
  obtain ⟨m3, hm3, e3, h23, h3le⟩ := exists_succStd hs hub hhead hchain hwrap hm2 e2
  have hu2pos := std_pos hlb hm2 e2
  have hu3pos := std_pos hlb hm3 e3
  have hu2sq : ((m2 : ℚ) * 10 ^ e2) ^ 2 ≤ s ^ 2 * ((m1 : ℚ) * 10 ^ e1) ^ 2 := by
    calc ((m2 : ℚ) * 10 ^ e2) ^ 2 ≤ (s * ((m1 : ℚ) * 10 ^ e1)) ^ 2 :=
          pow_le_pow_left hu2pos.le h2le 2
      _ = s ^ 2 * ((m1 : ℚ) * 10 ^ e1) ^ 2 := mul_pow s _ 2
  have hu3sq : ((m3 : ℚ) * 10 ^ e3) ^ 2 ≤ s ^ 2 * ((m2 : ℚ) * 10 ^ e2) ^ 2 := by
    calc ((m3 : ℚ) * 10 ^ e3) ^ 2 ≤ (s * ((m2 : ℚ) * 10 ^ e2)) ^ 2 :=
          pow_le_pow_left hu3pos.le h3le 2
      _ = s ^ 2 * ((m2 : ℚ) * 10 ^ e2) ^ 2 := mul_pow s _ 2
  have hs2 : (0 : ℚ) ≤ s ^ 2 := by positivity
  have h1b : ((m1 : ℚ) * 10 ^ e1) ^ 2 ≤ b2 :=
    le_trans hu1sq (le_trans (hgrow 2 6 (by norm_num)) hb2)
  have h2b : ((m2 : ℚ) * 10 ^ e2) ^ 2 ≤ b2 := by
    calc ((m2 : ℚ) * 10 ^ e2) ^ 2 ≤ s ^ 2 * ((m1 : ℚ) * 10 ^ e1) ^ 2 := hu2sq
      _ ≤ s ^ 2 * (s ^ 2 * a2) := mul_le_mul_of_nonneg_left hu1sq hs2
      _ = s ^ 4 * a2 := by ring
      _ ≤ s ^ 6 * a2 := hgrow 4 6 (by norm_num)
      _ ≤ b2 := hb2
  have h3b : ((m3 : ℚ) * 10 ^ e3) ^ 2 ≤ b2 := by
    calc ((m3 : ℚ) * 10 ^ e3) ^ 2 ≤ s ^ 2 * ((m2 : ℚ) * 10 ^ e2) ^ 2 := hu3sq
      _ ≤ s ^ 2 * (s ^ 2 * ((m1 : ℚ) * 10 ^ e1) ^ 2) := mul_le_mul_of_nonneg_left hu2sq hs2
      _ ≤ s ^ 2 * (s ^ 2 * (s ^ 2 * a2)) := by
          refine mul_le_mul_of_nonneg_left (mul_le_mul_of_nonneg_left hu1sq hs2) hs2
      _ = s ^ 6 * a2 := by ring
      _ ≤ b2 := hb2
  have h2a : a2 ≤ ((m2 : ℚ) * 10 ^ e2) ^ 2 :=
    le_trans hu1a (pow_le_pow_left hu1pos.le h12.le 2)
  have h3a : a2 ≤ ((m3 : ℚ) * 10 ^ e3) ^ 2 :=
    le_trans h2a (pow_le_pow_left hu2pos.le h23.le 2)
  have hmem1 : (m1 : ℚ) * 10 ^ e1 ∈ enumRange t D r a2 b2 :=
    (mem_enumRange hs hlb hub hr ha hb _).2 ⟨⟨m1, hm1, e1, rfl⟩, hu1a, h1b⟩
  have hmem2 : (m2 : ℚ) * 10 ^ e2 ∈ enumRange t D r a2 b2 :=
    (mem_enumRange hs hlb hub hr ha hb _).2 ⟨⟨m2, hm2, e2, rfl⟩, h2a, h2b⟩
  have hmem3 : (m3 : ℚ) * 10 ^ e3 ∈ enumRange t D r a2 b2 :=
    (mem_enumRange hs hlb hub hr ha hb _).2 ⟨⟨m3, hm3, e3, rfl⟩, h3a, h3b⟩
  have h13 : (m1 : ℚ) * 10 ^ e1 < (m3 : ℚ) * 10 ^ e3 := lt_trans h12 h23
  have hsub : ({(m1 : ℚ) * 10 ^ e1, (m2 : ℚ) * 10 ^ e2, (m3 : ℚ) * 10 ^ e3} : Finset ℚ) ⊆
      (enumRange t D r a2 b2).toFinset := by
    intro x hx
    simp only [Finset.mem_insert, Finset.mem_singleton] at hx
    rcases hx with rfl | rfl | rfl
    · exact List.mem_toFinset.2 hmem1
    · exact List.mem_toFinset.2 hmem2
    · exact List.mem_toFinset.2 hmem3
  have hcard : ({(m1 : ℚ) * 10 ^ e1, (m2 : ℚ) * 10 ^ e2, (m3 : ℚ) * 10 ^ e3} :
      Finset ℚ).card = 3 := by
    rw [Finset.card_insert_of_not_mem (by
        simp only [Finset.mem_insert, Finset.mem_singleton]
        push_neg
        exact ⟨ne_of_lt h12, ne_of_lt h13⟩),
      Finset.card_insert_of_not_mem (by
        simp only [Finset.mem_singleton]
        exact ne_of_lt h23),
      Finset.card_singleton]
  calc 3 = ({(m1 : ℚ) * 10 ^ e1, (m2 : ℚ) * 10 ^ e2, (m3 : ℚ) * 10 ^ e3} :
        Finset ℚ).card := hcard.symm
    _ ≤ (enumRange t D r a2 b2).toFinset.card := Finset.card_le_card hsub
    _ ≤ (enumRange t D r a2 b2).length := List.toFinset_card_le _

theorem insertByKey_length (x : ℕ × ℚ) (l : List (ℕ × ℚ)) :
    (insertByKey x l).length = l.length + 1 := by
  induction l with
  | nil => rfl
  | cons y ys ih =>
      rw [insertByKey]
      by_cases h : x.2 ≤ y.2
      · rw [if_pos h]
        simp
      · rw [if_neg h]
        simp [ih]

theorem sortByKey_length (l : List (ℕ × ℚ)) : (sortByKey l).length = l.length := by
  induction l with
  | nil => rfl
  | cons x xs ih =>
      rw [sortByKey, insertByKey_length, ih]
      rfl

theorem insertVal_length (x : ℚ) (l : List ℚ) :
    (insertVal x l).length = l.length + 1 := by
  induction l with
  | nil => rfl
  | cons y ys ih =>
      rw [insertVal]
      by_cases h : x ≤ y
      · rw [if_pos h]
        simp
      · rw [if_neg h]
        simp [ih]

theorem sortVals_length (l : List ℚ) : (sortVals l).length = l.length := by
  induction l with
  | nil => rfl
  | cons x xs ih =>
      rw [sortVals, insertVal_length, ih]
      rfl

theorem mem_insertVal {z x : ℚ} {l : List ℚ} :
    z ∈ insertVal x l ↔ z = x ∨ z ∈ l := by
  induction l with
  | nil => simp [insertVal]
  | cons y ys ih =>
      rw [insertVal]
      by_cases h : x ≤ y
      · rw [if_pos h]
        simp [List.mem_cons]
      · rw [if_neg h]
        rw [List.mem_cons, ih, List.mem_cons]
        tauto

theorem insertVal_sorted {x : ℚ} {l : List ℚ} (h : l.Pairwise (· ≤ ·)) :
    (insertVal x l).Pairwise (· ≤ ·) := by
  induction l with
  | nil => simp [insertVal]
  | cons y ys ih =>
      rw [insertVal]
      rcases List.pairwise_cons.1 h with ⟨hy, hys⟩
      by_cases hxy : x ≤ y
      · rw [if_pos hxy]
        refine List.pairwise_cons.2 ⟨?_, h⟩
        intro z hz
        rcases List.mem_cons.1 hz with rfl | hz
        · exact hxy
        · exact le_trans hxy (hy z hz)
      · rw [if_neg hxy]
        refine List.pairwise_cons.2 ⟨?_, ih hys⟩
        intro z hz
        rcases mem_insertVal.1 hz with rfl | hz
        · exact le_of_not_le hxy
        · exact hy z hz

theorem sortVals_sorted (l : List ℚ) : (sortVals l).Pairwise (· ≤ ·) := by
  induction l with
  | nil => exact List.Pairwise.nil
  | cons x xs ih => exact insertVal_sorted ih

theorem nearest_n_length {c : List ℚ} (v : ℚ) {n : ℕ} (h : n ≤ c.length) :
    (_nearest_n c v n).length = n := by
  simp only [_nearest_n]
  rw [sortVals_length, List.length_map, List.length_take, List.length_map,
    sortByKey_length, List.enum_length, List.length_map]
  omega

theorem nearest_n_sorted (c : List ℚ) (v : ℚ) (n : ℕ) :
    (_nearest_n c v n).Pairwise (· ≤ ·) := by
  simp only [_nearest_n]
  exact sortVals_sorted _

/-- C7: for every series key, every target value in the representable range
(positive with `minE² · scale³ ≤ value²`, i.e. the window start is not below
the minimum representable value), and every `num`: if `num ∈ {1, 2, 3}` then
`find_nearest_few` returns exactly `num` values sorted ascending, and if
`num ∉ {1, 2, 3}` it fails with the invalid-count error. -/
theorem find_nearest_few_cardinality (k : ESeries) (value : ℚ) (num : ℕ)
    (hv0 : 0 < value)
    (hvlo : qMul (minE ^ 2) (geometricScale k ^ 3) ≤ value ^ 2) :
    (¬(num = 1 ∨ num = 2 ∨ num = 3) →
        find_nearest_few k value num = .error (.invalidNum num)) ∧
      ((num = 1 ∨ num = 2 ∨ num = 3) →
        ∃ L, find_nearest_few k value num = .ok L ∧ L.length = num ∧
          L.Pairwise (· ≤ ·)) := by
  have hs1 := tbl_s_one k
  have hs0 : (0 : ℚ) < geometricScale k := lt_of_lt_of_le one_pos hs1
  constructor
  · intro hnum
    rw [find_nearest_few, if_pos hnum]
  · intro hnum
    have hg1 : ¬(value ≤ 0 ∨ value ^ 2 < qMul (minE ^ 2) (geometricScale k ^ 3)) := by
      rintro (h | h)
      · exact absurd hv0 (not_lt.2 h)
      · exact absurd hvlo (not_le.2 h)
    have hg2 : ¬ qMul (value ^ 2) (geometricScale k ^ 3) < minE ^ 2 := by
      have hvlo' := hvlo
      rw [qMul_eq] at hvlo'
      have hs3 : 1 ≤ geometricScale k ^ 3 := one_le_pow₀ hs1
      have h1 : minE ^ 2 ≤ minE ^ 2 * geometricScale k ^ 3 :=
        le_mul_of_one_le_right (sq_nonneg _) hs3
      have h3 : value ^ 2 ≤ value ^ 2 * geometricScale k ^ 3 :=
        le_mul_of_one_le_right (sq_nonneg _) hs3
      rw [qMul_eq]
      linarith
    have hb : (0 : ℚ) < qMul (value ^ 2) (geometricScale k ^ 3) := by
      rw [qMul_eq]
      exact mul_pos (pow_pos hv0 2) (pow_pos hs0 3)
    have ha : (0 : ℚ) < qDiv (value ^ 2) (geometricScale k ^ 3) := by
      rw [qDiv_eq]
      exact div_pos (pow_pos hv0 2) (pow_pos hs0 3)
    have hchain' := tbl_chain k
    simp only [qMul_eq] at hchain'
    have hwrap' := tbl_wrap k
    rw [qMul_eq, qMul_eq] at hwrap'
    have hb2 : geometricScale k ^ 6 * qDiv (value ^ 2) (geometricScale k ^ 3) ≤
        qMul (value ^ 2) (geometricScale k ^ 3) := by
      rw [qDiv_eq, qMul_eq]
      refine le_of_eq ?_
      have hne3 : geometricScale k ^ 3 ≠ 0 := (pow_pos hs0 3).ne'
      field_simp
      ring
    have hge3 : 3 ≤ (enumRange (_E k) (seriesDecade k) (lastRatio k)
        (qDiv (value ^ 2) (geometricScale k ^ 3))
        (qMul (value ^ 2) (geometricScale k ^ 3))).length :=
      three_in_window (tbl_sorted k) (tbl_lb k) (tbl_ub k) (tbl_head k) (tbl_ne k)
        hchain' hwrap' hs1 (tbl_r_one k) ha hb2
    have hnum3 : num ≤ 3 := by rcases hnum with rfl | rfl | rfl <;> norm_num
    refine ⟨_nearest_n (enumRange (_E k) (seriesDecade k) (lastRatio k)
        (qDiv (value ^ 2) (geometricScale k ^ 3))
        (qMul (value ^ 2) (geometricScale k ^ 3))) value num, ?_, ?_, ?_⟩
    · rw [find_nearest_few, if_neg (not_not_intro hnum)]
      dsimp only
      rw [if_neg hg1, if_neg hg2, erangeCore_ok k hb]
    · exact nearest_n_length value (le_trans hnum3 hge3)
    · exact nearest_n_sorted _ _ _

/-- C7 witness: the theorem applied at series E12, value 1, count 2. -/
theorem find_nearest_few_cardinality_witness :
    (0 : ℚ) < 1 ∧ qMul (minE ^ 2) (geometricScale .E12 ^ 3) ≤ (1 : ℚ) ^ 2 ∧
      ((¬(2 = 1 ∨ 2 = 2 ∨ 2 = 3) →
          find_nearest_few .E12 1 2 = .error (.invalidNum 2)) ∧
        ((2 = 1 ∨ 2 = 2 ∨ 2 = 3) →
          ∃ L, find_nearest_few .E12 1 2 = .ok L ∧ L.length = 2 ∧
            L.Pairwise (· ≤ ·))) :=
  ⟨by decide, by decide, find_nearest_few_cardinality .E12 1 2 (by decide) (by decide)⟩

/-! ## C4 / C10: the stable selection of `_nearest_n` -/

theorem mem_insertByKey {q x : ℕ × ℚ} {l : List (ℕ × ℚ)} :
    q ∈ insertByKey x l ↔ q = x ∨ q ∈ l := by
  induction l with
  | nil => simp [insertByKey]
  | cons y ys ih =>
      rw [insertByKey]
      by_cases h : x.2 ≤ y.2
      · rw [if_pos h]
        simp [List.mem_cons]
      · rw [if_neg h]
        rw [List.mem_cons, ih, List.mem_cons]
        tauto

theorem mem_sortByKey {q : ℕ × ℚ} {l : List (ℕ × ℚ)} :
    q ∈ sortByKey l ↔ q ∈ l := by
  induction l with
  | nil => simp [sortByKey]
  | cons x xs ih =>
      rw [sortByKey, mem_insertByKey, ih, List.mem_cons]

theorem mem_sortVals {x : ℚ} {l : List ℚ} : x ∈ sortVals l ↔ x ∈ l := by
  induction l with
  | nil => simp [sortVals]
  | cons y ys ih =>
      rw [sortVals, mem_insertVal, ih, List.mem_cons]

/-- The head of the stable sort is the first element of the input attaining
the minimal key: it is a global key-minimum, and every element occurring
before it in the input has a strictly larger key (a tie never overtakes). -/
theorem sortByKey_head_first : ∀ {l : List (ℕ × ℚ)}, l ≠ [] →
    ∃ l1 p l2 rest, l = l1 ++ p :: l2 ∧ sortByKey l = p :: rest ∧
      (∀ q ∈ l1, p.2 < q.2) ∧ (∀ q ∈ l, p.2 ≤ q.2) := by
  intro l
  induction l with
  | nil => intro h; exact absurd rfl h
  | cons x xs ih =>
      intro _
      cases hxs : xs with
      | nil =>
          refine ⟨[], x, [], [], by simp, by rw [sortByKey, sortByKey, insertByKey], ?_, ?_⟩
          · intro q hq
            simp at hq
          · intro q hq
            have hqx : q = x := by simpa using hq
            subst hqx
            exact le_rfl
      | cons y ys =>
          rw [← hxs]
          obtain ⟨l1, p, l2, rest, hsplit, hsort, hbefore, hmin⟩ :=
            ih (by rw [hxs]; exact List.cons_ne_nil y ys)
          rw [sortByKey, hsort, insertByKey]
          by_cases hxp : x.2 ≤ p.2
          · rw [if_pos hxp]
            refine ⟨[], x, xs, p :: rest, by simp, rfl, ?_, ?_⟩
            · intro q hq
              simp at hq
            · intro q hq
              rcases List.mem_cons.1 hq with rfl | hq
              · exact le_rfl
              · exact le_trans hxp (hmin q hq)
          · rw [if_neg hxp]
            refine ⟨x :: l1, p, l2, insertByKey x rest, by rw [hsplit]; rfl, rfl, ?_, ?_⟩
            · intro q hq
              rcases List.mem_cons.1 hq with rfl | hq
              · exact not_le.1 hxp
              · exact hbefore q hq
            · intro q hq
              rcases List.mem_cons.1 hq with rfl | hq
              · exact (not_le.1 hxp).le
              · exact hmin q hq

/-- On an ascending list containing `v`, the forward scan for the first
element `≥ v` returns `v` itself. -/
theorem find_sorted_eq {L : List ℚ} (hL : L.Pairwise (· ≤ ·)) {v : ℚ} (hv : v ∈ L) :
    L.find? (fun c => decide (v ≤ c)) = some v := by
  induction L with
  | nil => simp at hv
  | cons a as ih =>
      rcases List.pairwise_cons.1 hL with ⟨ha, has⟩
      by_cases hva : v ≤ a
      · rw [List.find?_cons_of_pos _ (by simpa using hva)]
        rcases List.mem_cons.1 hv with rfl | hv
        · rfl
        · exact congrArg some (le_antisymm (ha v hv) hva)
      · rw [List.find?_cons_of_neg _ (by simpa using hva)]
        rcases List.mem_cons.1 hv with rfl | hv
        · exact absurd le_rfl hva
        · exact ih has hv

/-- On a descending list containing `v`, the forward scan for the first
element `≤ v` returns `v` itself (this is the reverse scan of the
`find_less_than*` searches). -/
theorem find_desc_sorted_eq {L : List ℚ} (hL : L.Pairwise (· ≥ ·)) {v : ℚ} (hv : v ∈ L) :
    L.find? (fun c => decide (c ≤ v)) = some v := by
  induction L with
  | nil => simp at hv
  | cons a as ih =>
      rcases List.pairwise_cons.1 hL with ⟨ha, has⟩
      by_cases hav : a ≤ v
      · rw [List.find?_cons_of_pos _ (by simpa using hav)]
        rcases List.mem_cons.1 hv with rfl | hv
        · rfl
        · exact congrArg some (le_antisymm hav (ha v hv))
      · rw [List.find?_cons_of_neg _ (by simpa using hav)]
        rcases List.mem_cons.1 hv with rfl | hv
        · exact absurd le_rfl hav
        · exact ih has hv

/-- If the target `v` is itself a candidate (of a duplicate-free candidate
list), then the index of `v` is the head of the stable distance ranking: its
key `0` is the strict unique minimum. -/
theorem nearest_n_head {c : List ℚ} (hnd : c.Nodup) {v : ℚ} {j : ℕ} (hj : j < c.length)
    (hjv : c.getD j 0 = v) :
    ∃ tail, (sortByKey ((c.map fun x => |qSub x v|).enum)).map Prod.fst = j :: tail := by
  have hlen : ((c.map fun x => |qSub x v|).enum).length = c.length := by
    rw [List.enum_length, List.length_map]
  have hpairs : ∀ i, i < c.length →
      ((c.map fun x => |qSub x v|).enum).getD i (0, 0) =
        (i, |qSub (c.getD i 0) v|) := by
    intro i hi
    have hi' : i < ((c.map fun x => |qSub x v|).enum).length := by
      rw [hlen]
      exact hi
    rw [List.getD_eq_getElem _ _ hi', List.getElem_enum, List.getElem_map,
      List.getD_eq_getElem c 0 hi]
  have hne : (c.map fun x => |qSub x v|).enum ≠ [] := by
    intro hcon
    rw [← List.length_eq_zero, hlen] at hcon
    omega
  obtain ⟨l1, p, l2, rest, hsplit, hsort, hbefore, hmin⟩ := sortByKey_head_first hne
  have hjmem : (j, (0 : ℚ)) ∈ (c.map fun x => |qSub x v|).enum := by
    have h0 : |qSub (c.getD j 0) v| = 0 := by
      rw [qSub_eq, hjv, sub_self, abs_zero]
    have heq := hpairs j hj
    rw [h0] at heq
    have hj' : j < ((c.map fun x => |qSub x v|).enum).length := by
      rw [hlen]
      exact hj
    have hmemD : ((c.map fun x => |qSub x v|).enum).getD j (0, 0) ∈
        (c.map fun x => |qSub x v|).enum := by
      rw [List.getD_eq_getElem _ _ hj']
      exact List.getElem_mem _
    rw [heq] at hmemD
    exact hmemD
  obtain ⟨i, hi', hpi⟩ :=
    List.mem_iff_getElem.1 (mem_sortByKey.1 (hsort ▸ List.mem_cons_self p rest))
  have hi : i < c.length := by
    rw [hlen] at hi'
    exact hi'
  have hpieq : p = (i, |qSub (c.getD i 0) v|) := by
    rw [← hpairs i hi, List.getD_eq_getElem _ _ hi']
    exact hpi.symm
  have hp2 : p.2 = 0 := by
    have h1 : p.2 ≤ 0 := hmin _ hjmem
    have h2 : 0 ≤ p.2 := by
      rw [hpieq]
      exact abs_nonneg _
    linarith
  have hci : c.getD i 0 = v := by
    have habs : |qSub (c.getD i 0) v| = 0 := by
      rw [hpieq] at hp2
      exact hp2
    rw [qSub_eq, abs_eq_zero, sub_eq_zero] at habs
    exact habs
  have hij : i = j := by
    have e1 : c.getD i 0 = c.getD j 0 := by rw [hci, hjv]
    rw [List.getD_eq_getElem c 0 hi, List.getD_eq_getElem c 0 hj] at e1
    exact (List.Nodup.getElem_inj_iff hnd).1 e1
  refine ⟨rest.map Prod.fst, ?_⟩
  rw [hsort, List.map_cons, hpieq, hij]

/-- When the target is itself a candidate, `_nearest_n` with `num = 1`
returns exactly the singleton of the target. -/
theorem nearest_n_one {c : List ℚ} (hnd : c.Nodup) {v : ℚ} (hv : v ∈ c) :
    _nearest_n c v 1 = [v] := by
  obtain ⟨j, hj, hjv⟩ := List.mem_iff_getElem.1 hv
  obtain ⟨tail, htail⟩ := nearest_n_head hnd hj (by rw [List.getD_eq_getElem c 0 hj, hjv])
  simp only [_nearest_n]
  rw [htail, List.take_succ_cons, List.take_zero, List.map_cons, List.map_nil,
    List.getD_eq_getElem c 0 hj, hjv]
  rfl

/-- When the target is itself a candidate, it is among the `num` nearest for
every positive `num`. -/
theorem mem_nearest_n {c : List ℚ} (hnd : c.Nodup) {v : ℚ} (hv : v ∈ c) (n : ℕ)
    (hn : 0 < n) : v ∈ _nearest_n c v n := by
  obtain ⟨j, hj, hjv⟩ := List.mem_iff_getElem.1 hv
  obtain ⟨tail, htail⟩ := nearest_n_head hnd hj (by rw [List.getD_eq_getElem c 0 hj, hjv])
  obtain ⟨n', rfl⟩ := Nat.exists_eq_succ_of_ne_zero hn.ne'
  simp only [_nearest_n]
  rw [htail, List.take_succ_cons, List.map_cons, List.getD_eq_getElem c 0 hj, hjv]
  exact mem_sortVals.2 (List.mem_cons_self _ _)

/-- For a valid positive target, `find_nearest_few` succeeds and returns the
stable `num`-nearest selection over the `erange` window. -/
theorem fnf_ok (k : ESeries) {value : ℚ} (hv0 : 0 < value)
    (hvlo : qMul (minE ^ 2) (geometricScale k ^ 3) ≤ value ^ 2) (num : ℕ)
    (hnum : num = 1 ∨ num = 2 ∨ num = 3) :
    find_nearest_few k value num =
      .ok (_nearest_n (enumRange (_E k) (seriesDecade k) (lastRatio k)
        (qDiv (value ^ 2) (geometricScale k ^ 3))
        (qMul (value ^ 2) (geometricScale k ^ 3))) value num) := by
  have hs1 := tbl_s_one k
  have hs0 : (0 : ℚ) < geometricScale k := lt_of_lt_of_le one_pos hs1
  have hg1 : ¬(value ≤ 0 ∨ value ^ 2 < qMul (minE ^ 2) (geometricScale k ^ 3)) := by
    rintro (h | h)
    · exact absurd hv0 (not_lt.2 h)
    · exact absurd hvlo (not_le.2 h)
  have hg2 : ¬ qMul (value ^ 2) (geometricScale k ^ 3) < minE ^ 2 := by
    have hvlo' := hvlo
    rw [qMul_eq] at hvlo'
    have hs3 : 1 ≤ geometricScale k ^ 3 := one_le_pow₀ hs1
    have h1 : minE ^ 2 ≤ minE ^ 2 * geometricScale k ^ 3 :=
      le_mul_of_one_le_right (sq_nonneg _) hs3
    have h3 : value ^ 2 ≤ value ^ 2 * geometricScale k ^ 3 :=
      le_mul_of_one_le_right (sq_nonneg _) hs3
    rw [qMul_eq]
    linarith
  have hb : (0 : ℚ) < qMul (value ^ 2) (geometricScale k ^ 3) := by
    rw [qMul_eq]
    exact mul_pos (pow_pos hv0 2) (pow_pos hs0 3)
  rw [find_nearest_few, if_neg (not_not_intro hnum)]
  dsimp only
  rw [if_neg hg1, if_neg hg2, erangeCore_ok k hb]

theorem tbl_s_le10 (k : ESeries) : geometricScale k ≤ 10 := by
  cases k <;> decide

/-- Every stored table value is far inside the representable range. -/
theorem table_value_valid (k : ESeries) {m : ℕ} (hm : m ∈ _E k) :
    (0 : ℚ) < (m : ℚ) ∧ qMul (minE ^ 2) (geometricScale k ^ 3) ≤ (m : ℚ) ^ 2 := by
  have hm1 : (1 : ℚ) ≤ (m : ℚ) := by
    have h := tbl_lb k m hm
    have h1 : 1 ≤ m := le_trans (Nat.one_le_pow _ _ (by norm_num)) h
    exact_mod_cast h1
  refine ⟨by linarith, ?_⟩
  rw [qMul_eq]
  have h1 : minE ^ 2 ≤ 1 / 1000 := by
    have hmk : (mkRat 1 1000 : ℚ) = 1 / 1000 := by
      rw [Rat.mkRat_eq_divInt, Rat.divInt_eq_div]
      norm_num
    rw [← hmk]
    decide
  have hs0 : (0 : ℚ) ≤ geometricScale k := le_trans zero_le_one (tbl_s_one k)
  have h2 : geometricScale k ^ 3 ≤ 1000 := by
    calc geometricScale k ^ 3 ≤ 10 ^ 3 := pow_le_pow_left hs0 (tbl_s_le10 k) 3
      _ = 1000 := by norm_num
  have h3 : minE ^ 2 * geometricScale k ^ 3 ≤ (1 / 1000) * 1000 :=
    mul_le_mul h1 h2 (by positivity) (by norm_num)
  have h4 : (1 : ℚ) ≤ (m : ℚ) ^ 2 := one_le_pow₀ hm1
  calc minE ^ 2 * geometricScale k ^ 3 ≤ 1 := by linarith
    _ ≤ (m : ℚ) ^ 2 := h4

/-- Every stored table value lies inside its own `find_nearest_few` window. -/
theorem table_value_mem (k : ESeries) {m : ℕ} (hm : m ∈ _E k) :
    (m : ℚ) ∈ enumRange (_E k) (seriesDecade k) (lastRatio k)
      (qDiv ((m : ℚ) ^ 2) (geometricScale k ^ 3))
      (qMul ((m : ℚ) ^ 2) (geometricScale k ^ 3)) := by
  obtain ⟨hv0, -⟩ := table_value_valid k hm
  have hs1 := tbl_s_one k
  have hs0 : (0 : ℚ) < geometricScale k := lt_of_lt_of_le one_pos hs1
  have hs3 : 1 ≤ geometricScale k ^ 3 := one_le_pow₀ hs1
  have ha : (0 : ℚ) < qDiv ((m : ℚ) ^ 2) (geometricScale k ^ 3) := by
    rw [qDiv_eq]
    exact div_pos (pow_pos hv0 2) (pow_pos hs0 3)
  have hb : (0 : ℚ) < qMul ((m : ℚ) ^ 2) (geometricScale k ^ 3) := by
    rw [qMul_eq]
    exact mul_pos (pow_pos hv0 2) (pow_pos hs0 3)
  refine (mem_enumRange (tbl_sorted k) (tbl_lb k) (tbl_ub k) (tbl_r_one k) ha hb _).2
    ⟨⟨m, hm, 0, by rw [zpow_zero, mul_one]⟩, ?_, ?_⟩
  · rw [qDiv_eq]
    exact div_le_self (sq_nonneg _) hs3
  · rw [qMul_eq]
    exact le_mul_of_one_le_right (sq_nonneg _) hs3

/-- C4: for every series key and every value drawn literally from the stored
table, `find_nearest`, `find_less_than_or_equal` and
`find_greater_than_or_equal` each return that exact value. -/
theorem find_roundtrip_table_values (k : ESeries) (m : ℕ) (hm : m ∈ _E k) :
    find_nearest k (m : ℚ) = .ok (m : ℚ) ∧
      find_less_than_or_equal k (m : ℚ) = .ok (m : ℚ) ∧
      find_greater_than_or_equal k (m : ℚ) = .ok (m : ℚ) := by
  obtain ⟨hv0, hvlo⟩ := table_value_valid k hm
  have hok1 := fnf_ok k hv0 hvlo 1 (by norm_num)
  have hok3 := fnf_ok k hv0 hvlo 3 (by norm_num)
  have hnd : (enumRange (_E k) (seriesDecade k) (lastRatio k)
      (qDiv ((m : ℚ) ^ 2) (geometricScale k ^ 3))
      (qMul ((m : ℚ) ^ 2) (geometricScale k ^ 3))).Nodup :=
    nodup_of_sorted (pairwise_enumRange (tbl_sorted k) (tbl_lb k) (tbl_ub k))
  have hmem := table_value_mem k hm
  have h1 := nearest_n_one hnd hmem
  have hmem3 := mem_nearest_n hnd hmem 3 (by norm_num)
  have hsort3 := nearest_n_sorted (enumRange (_E k) (seriesDecade k) (lastRatio k)
      (qDiv ((m : ℚ) ^ 2) (geometricScale k ^ 3))
      (qMul ((m : ℚ) ^ 2) (geometricScale k ^ 3))) (m : ℚ) 3
  refine ⟨?_, ?_, ?_⟩
  · rw [find_nearest, hok1, h1]
  · rw [find_less_than_or_equal, hok3]
    dsimp only
    have hrev : ((_nearest_n (enumRange (_E k) (seriesDecade k) (lastRatio k)
        (qDiv ((m : ℚ) ^ 2) (geometricScale k ^ 3))
        (qMul ((m : ℚ) ^ 2) (geometricScale k ^ 3))) (m : ℚ) 3).reverse).Pairwise
          (· ≥ ·) := by
      rw [List.pairwise_reverse]
      exact hsort3
    rw [find_desc_sorted_eq hrev (List.mem_reverse.2 hmem3)]
  · rw [find_greater_than_or_equal, hok3]
    dsimp only
    rw [find_sorted_eq hsort3 hmem3]

/-- C4 witness: the theorem applied at the E3 table value 22. -/
theorem find_roundtrip_table_values_witness :
    22 ∈ _E .E3 ∧
      (find_nearest .E3 ((22 : ℕ) : ℚ) = .ok ((22 : ℕ) : ℚ) ∧
        find_less_than_or_equal .E3 ((22 : ℕ) : ℚ) = .ok ((22 : ℕ) : ℚ) ∧
        find_greater_than_or_equal .E3 ((22 : ℕ) : ℚ) = .ok ((22 : ℕ) : ℚ)) :=
  ⟨by decide, find_roundtrip_table_values .E3 22 (by decide)⟩

theorem getD_mem_q {l : List ℚ} {i : ℕ} (h : i < l.length) : l.getD i 0 ∈ l := by
  rw [List.getD_eq_getElem l 0 h]
  exact List.getElem_mem h

/-- Tie-break analysis of the stable selection: if the target sits exactly
between two candidates `l < v < u` of a strictly ascending duplicate-free
candidate list, and every other candidate is strictly farther away, then the
1-nearest selection is the lower candidate `l` — its index precedes the index
of `u` in the enumeration, so the stable sort keeps it first among the two
minimal keys. -/
theorem nearest_n_tie_head {c : List ℚ} (hnd : c.Nodup) (hsorted : c.Pairwise (· < ·))
    {v l u : ℚ} (hl : l ∈ c) (hu : u ∈ c) (hlv : l < v) (hvu : v < u)
    (htie : v - l = u - v)
    (hother : ∀ x ∈ c, x ≠ l → x ≠ u → v - l < |x - v|) :
    _nearest_n c v 1 = [l] := by
  obtain ⟨il, hil, hl_at⟩ := List.mem_iff_getElem.1 hl
  obtain ⟨iu, hiu, hu_at⟩ := List.mem_iff_getElem.1 hu
  have hlu : l < u := lt_trans hlv hvu
  have hilu : il < iu := by
    rcases Nat.lt_trichotomy il iu with h | h | h
    · exact h
    · exfalso
      subst h
      exact absurd (hl_at.symm.trans hu_at) (ne_of_lt hlu)
    · exfalso
      have hgt := List.pairwise_iff_getElem.1 hsorted iu il hiu hil h
      rw [hl_at, hu_at] at hgt
      exact absurd hgt (not_lt.2 hlu.le)
  have hdl : |qSub l v| = v - l := by
    rw [qSub_eq, abs_sub_comm, abs_of_pos (by linarith : (0 : ℚ) < v - l)]
  have hdu : |qSub u v| = v - l := by
    rw [qSub_eq, abs_of_pos (by linarith : (0 : ℚ) < u - v)]
    linarith
  have hlen : ((c.map fun x => |qSub x v|).enum).length = c.length := by
    rw [List.enum_length, List.length_map]
  have hpairs : ∀ i, i < c.length →
      ((c.map fun x => |qSub x v|).enum).getD i (0, 0) =
        (i, |qSub (c.getD i 0) v|) := by
    intro i hi
    have hi' : i < ((c.map fun x => |qSub x v|).enum).length := by
      rw [hlen]
      exact hi
    rw [List.getD_eq_getElem _ _ hi', List.getElem_enum, List.getElem_map,
      List.getD_eq_getElem c 0 hi]
  have hne : (c.map fun x => |qSub x v|).enum ≠ [] := by
    intro hcon
    rw [← List.length_eq_zero, hlen] at hcon
    omega
  obtain ⟨l1, p, l2, rest, hsplit, hsort, hbefore, hmin⟩ := sortByKey_head_first hne
  have hlmem_pairs : (il, |qSub (c.getD il 0) v|) ∈ (c.map fun x => |qSub x v|).enum := by
    have hilp : il < ((c.map fun x => |qSub x v|).enum).length := by
      rw [hlen]
      exact hil
    have h := hpairs il hil
    rw [List.getD_eq_getElem _ _ hilp] at h
    rw [← h]
    exact List.getElem_mem _
  have hgl : c.getD il 0 = l := by
    rw [List.getD_eq_getElem c 0 hil]
    exact hl_at
  have hle : p.2 ≤ v - l := by
    calc p.2 ≤ (il, |qSub (c.getD il 0) v|).2 := hmin _ hlmem_pairs
      _ = v - l := by
          show |qSub (c.getD il 0) v| = v - l
          rw [hgl]
          exact hdl
  obtain ⟨ip, hip', hp_at⟩ :=
    List.mem_iff_getElem.1 (mem_sortByKey.1 (hsort ▸ List.mem_cons_self p rest))
  have hip : ip < c.length := by
    rw [hlen] at hip'
    exact hip'
  have hpieq : p = (ip, |qSub (c.getD ip 0) v|) := by
    rw [← hpairs ip hip, List.getD_eq_getElem _ _ hip']
    exact hp_at.symm
  have hcpmem : c.getD ip 0 ∈ c := getD_mem_q hip
  by_cases hcl : c.getD ip 0 = l
  · have hipil : ip = il := by
      have e1 : c.getD ip 0 = c.getD il 0 := by rw [hcl, hgl]
      rw [List.getD_eq_getElem c 0 hip, List.getD_eq_getElem c 0 hil] at e1
      exact (List.Nodup.getElem_inj_iff hnd).1 e1
    have hp1 : p.1 = il := by
      rw [hpieq]
      exact hipil
    simp only [_nearest_n]
    rw [hsort, List.map_cons, List.take_succ_cons, List.take_zero, List.map_cons,
      List.map_nil, hp1, hgl]
    rfl
  · exfalso
    have hcu : c.getD ip 0 = u := by
      by_contra hcu
      have hfar := hother _ hcpmem hcl hcu
      have hkey : p.2 = |c.getD ip 0 - v| := by
        rw [hpieq]
        show |qSub (c.getD ip 0) v| = |c.getD ip 0 - v|
        rw [qSub_eq]
      rw [hkey] at hle
      linarith
    have hipiu : ip = iu := by
      have e1 : c.getD ip 0 = c.getD iu 0 := by
        rw [hcu, List.getD_eq_getElem c 0 hiu]
        exact hu_at.symm
      rw [List.getD_eq_getElem c 0 hip, List.getD_eq_getElem c 0 hiu] at e1
      exact (List.Nodup.getElem_inj_iff hnd).1 e1
    have hplen : l1.length < ((c.map fun x => |qSub x v|).enum).length := by
      rw [hsplit, List.length_append, List.length_cons]
      omega
    have hplenc : l1.length < c.length := by
      rw [← hlen]
      exact hplen
    have hp_pos : ((c.map fun x => |qSub x v|).enum).getD l1.length (0, 0) = p := by
      rw [List.getD_eq_getElem _ _ hplen,
        List.getElem_of_eq hsplit hplen,
        List.getElem_append_right (le_refl l1.length)]
      simp
    have hl1len : l1.length = ip := by
      have h2 : p = (l1.length, |qSub (c.getD l1.length 0) v|) := by
        rw [← hp_pos, hpairs l1.length hplenc]
      have h3 := congrArg Prod.fst h2
      have h4 := congrArg Prod.fst hpieq
      rw [h4] at h3
      exact h3.symm
    have hil_lt : il < l1.length := by
      rw [hl1len, hipiu]
      exact hilu
    have hilp : il < ((c.map fun x => |qSub x v|).enum).length := by
      rw [hlen]
      exact hil
    have hil_pair : ((c.map fun x => |qSub x v|).enum).getD il (0, 0) ∈ l1 := by
      rw [List.getD_eq_getElem _ _ hilp, List.getElem_of_eq hsplit hilp,
        List.getElem_append_left hil_lt]
      exact List.getElem_mem _
    have hbef := hbefore _ hil_pair
    have hkeyl : (((c.map fun x => |qSub x v|).enum).getD il (0, 0)).2 = v - l := by
      rw [hpairs il hil]
      show |qSub (c.getD il 0) v| = v - l
      rw [hgl]
      exact hdl
    have hkeyp : p.2 = v - l := by
      rw [hpieq]
      show |qSub (c.getD ip 0) v| = v - l
      rw [hcu]
      exact hdu
    rw [hkeyl] at hbef
    linarith

/-- Transfer of "no table entry strictly between two bounds inside one decade"
to "no standard value strictly between them": a standard value falling
strictly inside a single-decade interval must carry exponent zero, i.e. be a
bare table entry. -/
theorem no_std_between (k : ESeries) (lo hi : ℚ)
    (hlo : ((10 ^ seriesDecade k : ℕ) : ℚ) ≤ lo)
    (hhi : hi ≤ ((10 ^ (seriesDecade k + 1) : ℕ) : ℚ))
    (htab : ∀ m ∈ _E k, ¬(lo < (m : ℚ) ∧ (m : ℚ) < hi)) :
    ∀ x : ℚ, (∃ m ∈ _E k, ∃ e : ℤ, x = (m : ℚ) * 10 ^ e) → ¬(lo < x ∧ x < hi) := by
  rintro x ⟨m, hm, e, rfl⟩ ⟨h1, h2⟩
  have hD1 := (std_bracket (tbl_lb k m hm) (tbl_ub k m hm) e).1
  have hD2 := (std_bracket (tbl_lb k m hm) (tbl_ub k m hm) e).2
  have hcast1 : ((10 ^ seriesDecade k : ℕ) : ℚ) = (10 : ℚ) ^ (seriesDecade k : ℤ) := by
    push_cast
    rw [zpow_natCast]
  have hcast2 : ((10 ^ (seriesDecade k + 1) : ℕ) : ℚ) =
      (10 : ℚ) ^ ((seriesDecade k : ℤ) + 1) := by
    rw [show ((seriesDecade k : ℤ) + 1) = ((seriesDecade k + 1 : ℕ) : ℤ) by push_cast; ring,
      zpow_natCast]
    push_cast
    ring
  have he0 : e = 0 := by
    have hlt1 : (10 : ℚ) ^ ((seriesDecade k : ℤ) + e) < 10 ^ ((seriesDecade k : ℤ) + 1) := by
      calc (10 : ℚ) ^ ((seriesDecade k : ℤ) + e) ≤ (m : ℚ) * 10 ^ e := hD1
        _ < hi := h2
        _ ≤ (10 : ℚ) ^ ((seriesDecade k : ℤ) + 1) := by rw [← hcast2]; exact hhi
    have hlt2 : (10 : ℚ) ^ (seriesDecade k : ℤ) < 10 ^ ((seriesDecade k : ℤ) + e + 1) := by
      calc (10 : ℚ) ^ (seriesDecade k : ℤ) ≤ lo := by rw [← hcast1]; exact hlo
        _ < (m : ℚ) * 10 ^ e := h1
        _ < (10 : ℚ) ^ ((seriesDecade k : ℤ) + e + 1) := hD2
    have e1 : (seriesDecade k : ℤ) + e < (seriesDecade k : ℤ) + 1 :=
      (zpow_lt_zpow_iff_right₀ (by norm_num)).1 hlt1
    have e2 : (seriesDecade k : ℤ) < (seriesDecade k : ℤ) + e + 1 :=
      (zpow_lt_zpow_iff_right₀ (by norm_num)).1 hlt2
    omega
  rw [he0, zpow_zero, mul_one] at h1 h2
  exact htab m hm ⟨h1, h2⟩

/-- C10: when the target is exactly equidistant between the two adjacent
standard values bracketing it, `find_nearest` returns the lower one: the
stable distance sort keeps the earlier (smaller) of the two equally-near
candidates first. -/
theorem find_nearest_tie_lower (k : ESeries) (value l u : ℚ)
    (hls : ∃ m ∈ _E k, ∃ e : ℤ, l = (m : ℚ) * 10 ^ e)
    (hus : ∃ m ∈ _E k, ∃ e : ℤ, u = (m : ℚ) * 10 ^ e)
    (hadj : ∀ x : ℚ, (∃ m ∈ _E k, ∃ e : ℤ, x = (m : ℚ) * 10 ^ e) → ¬(l < x ∧ x < u))
    (hlv : l < value) (hvu : value < u) (htie : value - l = u - value)
    (hvlo : qMul (minE ^ 2) (geometricScale k ^ 3) ≤ value ^ 2) :
    find_nearest k value = .ok l := by
  have hs1 := tbl_s_one k
  have hs0 : (0 : ℚ) < geometricScale k := lt_of_lt_of_le one_pos hs1
  have hs3 : (1 : ℚ) ≤ geometricScale k ^ 3 := one_le_pow₀ hs1
  have hl0 : (0 : ℚ) < l := by
    obtain ⟨ml, hml, el, hleq⟩ := hls
    rw [hleq]
    exact std_pos (tbl_lb k) hml el
  have hv0 : (0 : ℚ) < value := lt_trans hl0 hlv
  have hu0 : (0 : ℚ) < u := lt_trans hv0 hvu
  have hok1 := fnf_ok k hv0 hvlo 1 (by norm_num)
  have hchain' := tbl_chain k
  simp only [qMul_eq] at hchain'
  have hwrap' := tbl_wrap k
  rw [qMul_eq, qMul_eq] at hwrap'
  have hul : u ≤ geometricScale k * l := by
    obtain ⟨ml, hml, el, hleq⟩ := hls
    obtain ⟨mx, hmx, ex, hlx, hxle⟩ := exists_succStd (tbl_sorted k) (tbl_ub k)
      (tbl_head k) hchain' hwrap' hml el
    have hnotbetween := hadj _ ⟨mx, hmx, ex, rfl⟩
    rw [← hleq] at hlx hxle
    have hux : u ≤ (mx : ℚ) * 10 ^ ex := by
      by_contra hc
      exact hnotbetween ⟨hlx, not_le.1 hc⟩
    exact le_trans hux hxle
  have ha : (0 : ℚ) < qDiv (value ^ 2) (geometricScale k ^ 3) := by
    rw [qDiv_eq]
    exact div_pos (pow_pos hv0 2) (pow_pos hs0 3)
  have hb : (0 : ℚ) < qMul (value ^ 2) (geometricScale k ^ 3) := by
    rw [qMul_eq]
    exact mul_pos (pow_pos hv0 2) (pow_pos hs0 3)
  have hla : qDiv (value ^ 2) (geometricScale k ^ 3) ≤ l ^ 2 := by
    rw [qDiv_eq, div_le_iff₀ (pow_pos hs0 3)]
    have h1 : value < geometricScale k * l := lt_of_lt_of_le hvu hul
    calc value ^ 2 ≤ (geometricScale k * l) ^ 2 := pow_le_pow_left hv0.le h1.le 2
      _ = geometricScale k ^ 2 * l ^ 2 := mul_pow _ _ 2
      _ ≤ geometricScale k ^ 3 * l ^ 2 :=
          mul_le_mul_of_nonneg_right (pow_le_pow_right₀ hs1 (by norm_num)) (sq_nonneg l)
      _ = l ^ 2 * geometricScale k ^ 3 := mul_comm _ _
  have hlb : l ^ 2 ≤ qMul (value ^ 2) (geometricScale k ^ 3) := by
    rw [qMul_eq]
    have h1 : l ^ 2 ≤ value ^ 2 := pow_le_pow_left hl0.le hlv.le 2
    exact le_trans h1 (le_mul_of_one_le_right (sq_nonneg _) hs3)
  have hua : qDiv (value ^ 2) (geometricScale k ^ 3) ≤ u ^ 2 := by
    rw [qDiv_eq]
    have h1 : value ^ 2 ≤ u ^ 2 := pow_le_pow_left hv0.le hvu.le 2
    exact le_trans (div_le_self (sq_nonneg _) hs3) h1
  have hub : u ^ 2 ≤ qMul (value ^ 2) (geometricScale k ^ 3) := by
    rw [qMul_eq]
    have h1 : u < geometricScale k * value := by
      calc u ≤ geometricScale k * l := hul
        _ < geometricScale k * value := by
            exact mul_lt_mul_of_pos_left hlv hs0
    calc u ^ 2 ≤ (geometricScale k * value) ^ 2 := pow_le_pow_left hu0.le h1.le 2
      _ = geometricScale k ^ 2 * value ^ 2 := mul_pow _ _ 2
      _ ≤ geometricScale k ^ 3 * value ^ 2 :=
          mul_le_mul_of_nonneg_right (pow_le_pow_right₀ hs1 (by norm_num)) (sq_nonneg _)
      _ = value ^ 2 * geometricScale k ^ 3 := mul_comm _ _
  have hlC : l ∈ enumRange (_E k) (seriesDecade k) (lastRatio k)
      (qDiv (value ^ 2) (geometricScale k ^ 3))
      (qMul (value ^ 2) (geometricScale k ^ 3)) :=
    (mem_enumRange (tbl_sorted k) (tbl_lb k) (tbl_ub k) (tbl_r_one k) ha hb _).2
      ⟨hls, hla, hlb⟩
  have huC : u ∈ enumRange (_E k) (seriesDecade k) (lastRatio k)
      (qDiv (value ^ 2) (geometricScale k ^ 3))
      (qMul (value ^ 2) (geometricScale k ^ 3)) :=
    (mem_enumRange (tbl_sorted k) (tbl_lb k) (tbl_ub k) (tbl_r_one k) ha hb _).2
      ⟨hus, hua, hub⟩
  have hsorted : (enumRange (_E k) (seriesDecade k) (lastRatio k)
      (qDiv (value ^ 2) (geometricScale k ^ 3))
      (qMul (value ^ 2) (geometricScale k ^ 3))).Pairwise (· < ·) :=
    pairwise_enumRange (tbl_sorted k) (tbl_lb k) (tbl_ub k)
  have hnd := nodup_of_sorted hsorted
  have hother : ∀ x ∈ enumRange (_E k) (seriesDecade k) (lastRatio k)
      (qDiv (value ^ 2) (geometricScale k ^ 3))
      (qMul (value ^ 2) (geometricScale k ^ 3)),
      x ≠ l → x ≠ u → value - l < |x - value| := by
    intro x hx hxl hxu
    rw [mem_enumRange (tbl_sorted k) (tbl_lb k) (tbl_ub k) (tbl_r_one k) ha hb] at hx
    obtain ⟨hxstd, -, -⟩ := hx
    have hno := hadj x hxstd
    have hcase : x ≤ l ∨ u ≤ x := by
      by_contra hc
      push_neg at hc
      exact hno ⟨hc.1, hc.2⟩
    rcases hcase with h | h
    · have hxl' : x < l := lt_of_le_of_ne h hxl
      rw [abs_sub_comm, abs_of_pos (by linarith : (0 : ℚ) < value - x)]
      linarith
    · have hxu' : u < x := lt_of_le_of_ne h (Ne.symm hxu)
      rw [abs_of_pos (by linarith : (0 : ℚ) < x - value)]
      linarith
  rw [find_nearest, hok1,
    nearest_n_tie_head hnd hsorted hlC huC hlv hvu htie hother]

/-- C10 witness: at E12, the target 91 is exactly halfway between the adjacent
standard values 82 and 100; the lower value 82 is returned. -/
theorem find_nearest_tie_lower_witness :
    ((82 : ℚ) < 91 ∧ (91 : ℚ) < 100 ∧ (91 : ℚ) - 82 = 100 - 91 ∧
      qMul (minE ^ 2) (geometricScale .E12 ^ 3) ≤ (91 : ℚ) ^ 2) ∧
      find_nearest .E12 91 = .ok 82 :=
  ⟨⟨by norm_num, by norm_num, by norm_num, by decide⟩,
    find_nearest_tie_lower .E12 91 82 100
      ⟨82, by decide, 0, by norm_num⟩
      ⟨10, by decide, 1, by norm_num⟩
      (by
        have h := no_std_between .E12 82 100 (by decide) (by decide)
          (by decide)
        intro x hx
        have h2 := h x hx
        intro hcon
        exact h2 hcon)
      (by norm_num) (by norm_num) (by norm_num) (by decide)⟩
